import Mathlib

/-!
Verification of the SpeedTestSKT Ping Comparator engine (src/s_op.py).

The embedding works on lines represented as `List Char` (the Python code
iterates over file lines with the trailing newline stripped, or over
`str.splitlines()` of a pasted block, so a line never contains `'\n'`).
Numeric values are modelled as rationals (`ℚ`): every numeric string the
program converts is a run of decimal digits and dots, on which Python's
`float` acts as exact decimal reading for the magnitudes involved; the
claims under verification only use values where this reading is exact.

Each regular expression of the source is embedded as an executable search
function with Python `re` semantics on ASCII text: `re.search` returns the
match starting at the leftmost possible position, alternatives are tried
left to right, greedy pieces match as much as possible (backtracking when a
later piece fails), lazy pieces as little as possible.
-/

namespace SOp

/-- Python's `\s` on ASCII text: space, tab, newline, CR, VT, FF. -/
def pyIsSpace (c : Char) : Bool :=
  c == ' ' || c == '\t' || c == '\n' || c == '\r' || c == '\x0b' || c == '\x0c'

/-- Character class `[\d.]` used by the value captures. -/
def digitDot (c : Char) : Bool := c.isDigit || c == '.'

/-- Python's `\w` on ASCII text, used for `\b` boundaries. -/
def isWordChar (c : Char) : Bool := c.isAlpha || c.isDigit || c == '_'

/-- `str.strip()` on ASCII whitespace. -/
def strip (l : List Char) : List Char :=
  ((l.dropWhile pyIsSpace).reverse.dropWhile pyIsSpace).reverse

/-- Value of a digit string, most significant first. -/
def natVal (l : List Char) : ℕ :=
  l.foldl (fun a c => 10 * a + (c.toNat - 48)) 0

/-- `_to_float` (src/s_op.py:67-76) on the digit-and-dot captures the program
produces: strip, fail on the empty string, read an optional single decimal
point; any other shape fails (returns `None`).  The captures feeding this
function are runs of `[\d.]`, for which Python's `float` succeeds exactly
when there is at least one digit and at most one dot. -/
def toFloatQ (s0 : List Char) : Option ℚ :=
  let s := strip s0
  if s.isEmpty then none
  else if s.all digitDot then
    let ip := s.takeWhile (fun c => c ≠ '.')
    let rest := s.drop ip.length
    match rest with
    | [] => some (natVal ip)
    | _ :: fp =>
      if fp.all Char.isDigit ∧ (ip ≠ [] ∨ fp ≠ []) then
        some (natVal ip + natVal fp / (10 : ℚ) ^ fp.length)
      else none
  else none

/-- `re.search` semantics: try the pattern-at-position matcher `f` at every
start position from the left, return the first success. -/
def reSearch {α : Type} (f : List Char → Option α) : List Char → Option α
  | [] => f []
  | c :: cs =>
    match f (c :: cs) with
    | some r => some r
    | none => reSearch f cs

/-- Case-insensitive literal prefix test (`re.IGNORECASE` on ASCII). -/
def ciPrefix : List Char → List Char → Bool
  | [], _ => true
  | _ :: _, [] => false
  | p :: ps, c :: cs => (c.toLower == p.toLower) && ciPrefix ps cs

/-- `DATE_RE` (src/s_op.py:24) at one position: the alternative
`\d{4}-\d{2}-\d{2}` is tried before `\d{2}-\d{2}`; on success the captured
date text is returned. -/
def matchDateAt : List Char → Option (List Char)
  | a :: b :: c :: d :: e :: f :: g :: h :: i :: j :: t =>
    if a.isDigit && b.isDigit && c.isDigit && d.isDigit && e == '-' &&
        f.isDigit && g.isDigit && h == '-' && i.isDigit && j.isDigit then
      some [a, b, c, d, e, f, g, h, i, j]
    else if a.isDigit && b.isDigit && c == '-' && d.isDigit && e.isDigit then
      some [a, b, c, d, e]
    else matchDateShort (a :: b :: c :: d :: e :: f :: g :: h :: i :: j :: t)
  | l => matchDateShort l
where
  /-- The `\d{2}-\d{2}` alternative for lines shorter than ten characters. -/
  matchDateShort : List Char → Option (List Char)
    | a :: b :: c :: d :: e :: _ =>
      if a.isDigit && b.isDigit && c == '-' && d.isDigit && e.isDigit then
        some [a, b, c, d, e]
      else none
    | _ => none

/-- `DATE_RE.search` (used by `_find_date_time`, src/s_op.py:53-58). -/
def dateSearch : List Char → Option (List Char) := reSearch matchDateAt

/-- `TIME_RE` (src/s_op.py:25) at one position: `\d{2}:\d{2}:\d{2}` followed
by an optional `[.,]\d{3,6}`; the optional group is greedy, so it consumes
`min 6` of the digits following the separator and participates only when at
least three digits follow. -/
def matchTimeAt : List Char → Option (List Char)
  | h1 :: h2 :: c1 :: m1 :: m2 :: c2 :: s1 :: s2 :: rest =>
    if h1.isDigit && h2.isDigit && c1 == ':' && m1.isDigit && m2.isDigit &&
        c2 == ':' && s1.isDigit && s2.isDigit then
      let base := [h1, h2, c1, m1, m2, c2, s1, s2]
      match rest with
      | p :: tl =>
        if p == '.' || p == ',' then
          let ds := tl.takeWhile Char.isDigit
          if 3 ≤ ds.length then some (base ++ p :: ds.take 6) else some base
        else some base
      | [] => some base
    else none
  | _ => none

/-- `TIME_RE.search`. -/
def timeSearch : List Char → Option (List Char) := reSearch matchTimeAt

/-- `_find_date_time` (src/s_op.py:53-58): both searches must succeed.  The
captured date and time are never empty strings, so the caller's falsiness
test `if not date or not time` coincides with this `Option`. -/
def findDateTime (l : List Char) : Option (List Char × List Char) :=
  match dateSearch l, timeSearch l with
  | some d, some t => some (d, t)
  | _, _ => none

/-- `SPEEDTEST_RE` (src/s_op.py:26) at one position: the literal
`SpeedTestSKT`, then `\s*:`; the `msg` group runs from the literal to the
end of the line (a line never contains a newline, so `.*$` takes the whole
remainder). -/
def speedAt (l : List Char) : Option (List Char) :=
  if "SpeedTestSKT".toList.isPrefixOf l then
    match (l.drop 12).dropWhile pyIsSpace with
    | ':' :: _ => some l
    | _ => none
  else none

/-- `SPEEDTEST_RE.search`: the leftmost marker occurrence followed by
`\s*:`; the raw payload `msg` is the rest of the line from there. -/
def speedSearch : List Char → Option (List Char) := reSearch speedAt

/-- `PING_MSG_FILTER`'s alternative `[Rr]equest\d+` applied after `Ping-`. -/
def altReq (t : List Char) : Bool :=
  match t with
  | r :: t2 =>
    (r == 'R' || r == 'r') && "equest".toList.isPrefixOf t2 &&
      (match t2.drop 6 with
       | d :: _ => d.isDigit
       | [] => false)
  | [] => false

/-- `PING_MSG_FILTER`'s alternative `[Rr]esponse\d+=\d+(?:\.\d+)?` applied
after `Ping-`.  The optional fraction group can only extend a success, never
turn one into a failure, so it does not affect acceptance. -/
def altResp (t : List Char) : Bool :=
  match t with
  | r :: t2 =>
    (r == 'R' || r == 'r') && "esponse".toList.isPrefixOf t2 &&
      (let u := t2.drop 7
       let ds := u.takeWhile Char.isDigit
       !ds.isEmpty &&
         (match u.drop ds.length with
          | '=' :: v :: _ => v.isDigit
          | _ => false))
  | [] => false

/-- `PING_MSG_FILTER` (src/s_op.py:28-33) at one position:
`SpeedTestSKT\s*:\s*TestData\s*Ping-` then one of the three alternatives.
The pattern is compiled without `re.IGNORECASE`, so every literal letter is
matched with its exact case; only the bracketed `[Rr]` is case-flexible. -/
def filterAt (l : List Char) : Bool :=
  if "SpeedTestSKT".toList.isPrefixOf l then
    match (l.drop 12).dropWhile pyIsSpace with
    | ':' :: r1 =>
      let t := r1.dropWhile pyIsSpace
      if "TestData".toList.isPrefixOf t then
        let u := (t.drop 8).dropWhile pyIsSpace
        if "Ping-".toList.isPrefixOf u then
          let p := u.drop 5
          altReq p || altResp p || "AvgResult".toList.isPrefixOf p
        else false
      else false
    | _ => false
  else false

/-- `PING_MSG_FILTER.search(raw_msg)` truthiness (src/s_op.py:94). -/
def pingMsgFilter (l : List Char) : Bool :=
  (reSearch (fun s => if filterAt s then some () else none) l).isSome

/-- `REQ_RE` (src/s_op.py:35) at one position; captures the digit run. -/
def reqAt (l : List Char) : Option (List Char) :=
  if "Ping-".toList.isPrefixOf l then
    match l.drop 5 with
    | r :: t2 =>
      if (r == 'R' || r == 'r') && "equest".toList.isPrefixOf t2 then
        let ds := (t2.drop 6).takeWhile Char.isDigit
        if ds.isEmpty then none else some ds
      else none
    | [] => none
  else none

/-- `REQ_RE.search`. -/
def reqSearch : List Char → Option (List Char) := reSearch reqAt

/-- `RESP_RE` (src/s_op.py:36) at one position; captures the sequence digits
and the `[\d.]+` value.  Both runs are greedy over disjoint follower sets,
so no backtracking arises. -/
def respAt (l : List Char) : Option (List Char × List Char) :=
  if "Ping-".toList.isPrefixOf l then
    match l.drop 5 with
    | r :: t2 =>
      if (r == 'R' || r == 'r') && "esponse".toList.isPrefixOf t2 then
        let u := t2.drop 7
        let ds := u.takeWhile Char.isDigit
        if ds.isEmpty then none
        else
          match u.drop ds.length with
          | '=' :: v =>
            let vs := v.takeWhile digitDot
            if vs.isEmpty then none else some (ds, vs)
          | _ => none
      else none
    | [] => none
  else none

/-- `RESP_RE.search`. -/
def respSearch : List Char → Option (List Char × List Char) := reSearch respAt

/-- The tail of `AVG_RE` (src/s_op.py:37) after the literal:
`\s*=?\s*([\d.]+)?`.  Every piece is greedy over pairwise disjoint
character sets (whitespace, `=`, digits-and-dot), so the match is
deterministic; the capture is `none` when no digit-or-dot follows. -/
def avgCapture (t : List Char) : Option (List Char) :=
  let t1 := t.dropWhile pyIsSpace
  let t2 := match t1 with
            | c :: r => if c = '=' then r else t1
            | [] => t1
  let t3 := t2.dropWhile pyIsSpace
  let run := t3.takeWhile digitDot
  if run.isEmpty then none else some run

/-- `AVG_RE` at one position: the literal `Ping-AvgResult` followed by the
all-optional tail; the whole pattern matches wherever the literal occurs. -/
def avgAt (l : List Char) : Option (Option (List Char)) :=
  if "Ping-AvgResult".toList.isPrefixOf l then some (avgCapture (l.drop 14))
  else none

/-- `AVG_RE.search`: `some g` when the literal occurs, where `g` is the
(possibly absent) group 1 of the leftmost match. -/
def avgSearch : List Char → Option (Option (List Char)) := reSearch avgAt

/-- The lowercase form matched by `Ping-[Rr]equest` / `Ping-[Rr]esponse`
(src/s_op.py:39-40), parametrised by the suffix after the flexible letter. -/
def patLow (suffix : List Char) : List Char :=
  'P' :: 'i' :: 'n' :: 'g' :: '-' :: 'r' :: suffix

/-- The canonical (replacement) form, with the capital letter. -/
def patUp (suffix : List Char) : List Char :=
  'P' :: 'i' :: 'n' :: 'g' :: '-' :: 'R' :: suffix

/-- Length of both forms. -/
def patLen (suffix : List Char) : ℕ := 6 + suffix.length

/-- One normalisation pass of `re.sub` with pattern `Ping-[Rr]xxx` and
replacement `Ping-Rxxx`: scan left to right, at each position replace a
match and resume after it, otherwise keep the character.  The first
argument is fuel (the scan advances at least one character per step, so
`l.length` fuel always suffices); fuel keeps the recursion structural and
hence kernel-computable. -/
def subCanonF (suffix : List Char) : ℕ → List Char → List Char
  | 0, l => l
  | _ + 1, [] => []
  | f + 1, c :: cs =>
    if (c :: cs).take (patLen suffix) = patLow suffix ∨
        (c :: cs).take (patLen suffix) = patUp suffix then
      patUp suffix ++ subCanonF suffix f ((c :: cs).drop (patLen suffix))
    else c :: subCanonF suffix f cs

/-- `REQ_NORM_RE.sub` / `RESP_NORM_RE.sub` for the given suffix. -/
def subCanon (suffix : List Char) (l : List Char) : List Char :=
  subCanonF suffix l.length l

/-- `_normalize_display_msg` (src/s_op.py:61-64): canonicalise
`Ping-[Rr]equest` to `Ping-Request`, then `Ping-[Rr]esponse` to
`Ping-Response`. -/
def normalizeMsg (l : List Char) : List Char :=
  subCanon "esponse".toList (subCanon "equest".toList l)

/-- One extracted log row (the dict built at src/s_op.py:119-127).
`line_no` is carried by `enumerate` in the source but never read, so it is
omitted. -/
structure PingRow where
  date : List Char
  time : List Char
  typ : List Char
  seq : List Char
  value : List Char
  raw_msg : List Char
  display : List Char
  deriving DecidableEq

/-- The `typ`/`seq`/`val` classification of src/s_op.py:97-115: try
`REQ_RE`, then `RESP_RE`, then `AVG_RE`; `m2.group(1) or ""` turns an
absent average capture into the empty string. -/
def classify (raw : List Char) : List Char × List Char × List Char :=
  match reqSearch raw with
  | some s => ("Ping-Request".toList, s, [])
  | none =>
    match respSearch raw with
    | some (s, v) => ("Ping-Response".toList, s, v)
    | none =>
      match avgSearch raw with
      | some g => ("Ping-AvgResult".toList, [], g.getD [])
      | none => ("Unknown".toList, [], [])

/-- Processing of one line by `extract_ping_logs` (src/s_op.py:82-127):
`none` when the line is skipped by one of the three `continue`s. -/
def rowOfLine (l : List Char) : Option PingRow :=
  match findDateTime l with
  | none => none
  | some (d, t) =>
    match speedSearch l with
    | none => none
    | some raw =>
      if pingMsgFilter raw then
        let c := classify raw
        some ⟨d, t, c.1, c.2.1, c.2.2, raw,
              d ++ ' ' :: t ++ ' ' :: normalizeMsg raw⟩
      else none

/-- `extract_ping_logs` (src/s_op.py:79-128) over the file's lines (each
with its trailing newline stripped): the loop appends the row of every
non-skipped line in order, i.e. a `filterMap`. -/
def extract_ping_logs (lines : List (List Char)) : List PingRow :=
  lines.filterMap rowOfLine

/-- Arithmetic mean, `None` on the empty list
(`(sum(values)/len(values)) if values else None`). -/
def meanQ (vs : List ℚ) : Option ℚ :=
  if vs.isEmpty then none else some (vs.sum / vs.length)

/-- `summarize_avgresults` (src/s_op.py:131-139): keep the `Ping-AvgResult`
rows, convert their value fields, average the successes. -/
def summarize_avgresults (rows : List PingRow) :
    List PingRow × List ℚ × Option ℚ :=
  let avgRows := rows.filter (fun r => r.typ = "Ping-AvgResult".toList)
  let values := avgRows.filterMap (fun r => toFloatQ r.value)
  (avgRows, values, meanQ values)

/-- Word/non-word status of an optional character; the end of the string
counts as non-word for `\b`. -/
def wordOpt (c : Option Char) : Bool :=
  match c with
  | some c => isWordChar c
  | none => false

/-- The metric kinds of the spec.  Only Ping appears in src/s_op.py; the
other two are kept for the spec-modelled paste summariser below. -/
inductive MetricKind
  | Ping
  | UplinkThroughput
  | DownlinkThroughput
  deriving DecidableEq

/-- Modelled from the spec: the MetricSpec registry's token per kind ("three
fixed literals (one per MetricKind), each marking an average-result
measurement"); only the Ping token occurs in src/s_op.py, the uplink and
downlink tokens follow the spec's `Up-AvgResult` example. -/
def tokenOf : MetricKind → List Char
  | .Ping => "Ping-AvgResult".toList
  | .UplinkThroughput => "Up-AvgResult".toList
  | .DownlinkThroughput => "Down-AvgResult".toList

/-- The Ping token, i.e. the literal of `PASTE_AVG_LINE_RE` and
`PASTE_AVG_VALUE_RE` (src/s_op.py:45-46). -/
def pingToken : List Char := "Ping-AvgResult".toList

/-- `\b` after a case-insensitive token occurrence: the token's last
character is compared for wordness against the following character.
(ASCII case folding preserves wordness, so using the token's character
instead of the subject's is exact.) -/
def bdryAfterTok (token : List Char) (s : List Char) : Bool :=
  wordOpt token.getLast? != wordOpt (s.drop token.length).head?

/-- `PASTE_AVG_LINE_RE` for a token: `token\b.*` with `re.IGNORECASE`,
searched anywhere in the line.  For `token = pingToken` this is exactly
src/s_op.py:45; other tokens are the spec-modelled registry instantiation. -/
def pasteFilterTok (token : List Char) (line : List Char) : Bool :=
  (reSearch (fun s =>
      if ciPrefix token s && bdryAfterTok token s then some () else none)
    line).isSome

/-- Greedy `[\d.]+\b` backtracking: `r` is the maximal digit-and-dot run and
`next` the character after it; the engine keeps the longest nonempty
cut `j` of the run whose end is a word boundary. -/
def bestCut (r : List Char) (next : Option Char) : Option ℕ :=
  ((List.range r.length).reverse.map (fun j => j + 1)).find? (fun j =>
    isWordChar (r.getD (j - 1) ' ') !=
      (if j < r.length then isWordChar (r.getD j ' ') else wordOpt next))

/-- The `.*?(?:=|\s)([\d.]+)\b` tail of `PASTE_AVG_VALUE_RE`: the lazy gap
grows one character at a time; at each stop the engine needs `=` or a
whitespace, then a nonempty digit-and-dot run cut at a word boundary. -/
def lazyVal : List Char → Option (List Char)
  | [] => none
  | c :: cs =>
    if c == '=' || pyIsSpace c then
      let r := cs.takeWhile digitDot
      if r.isEmpty then lazyVal cs
      else
        match bestCut r (cs.drop r.length).head? with
        | some j => some (r.take j)
        | none => lazyVal cs
    else lazyVal cs

/-- `PASTE_AVG_VALUE_RE` for a token: `token\b.*?(?:=|\s)([\d.]+)\b` with
`re.IGNORECASE`, leftmost match, capture returned.  For `token = pingToken`
this is exactly src/s_op.py:46. -/
def pasteValueTok (token : List Char) : List Char → Option (List Char) :=
  reSearch (fun s =>
    if ciPrefix token s && bdryAfterTok token s then
      lazyVal (s.drop token.length)
    else none)

/-- `PASTE_FILE_HEADER_RE.match(line)` (src/s_op.py:47,162-164):
`^\[File\]\s+(?P<name>.+?)\s*$` with `re.IGNORECASE`.  Returns the `name`
group with surrounding whitespace removed — the caller immediately applies
`.strip()`, and the regex itself already confines the lazy group between
`\s+` and `\s*$`, so the group equals `strip` of the remainder whenever the
remainder contains a non-space (when it is all spaces of length ≥ 2 the
group is a single space, which strips to the empty name). -/
def headerName (line : List Char) : Option (List Char) :=
  if ciPrefix "[file]".toList line then
    match line.drop 6 with
    | c :: rest =>
      if pyIsSpace c then
        let body := c :: rest
        if body.all pyIsSpace then
          if 2 ≤ body.length then some [] else none
        else some (strip body)
      else none
    | [] => none
  else none

/-- Result of `summarize_from_text` (without the mean, computed by
`meanQ` on `values`). -/
structure TextSummary where
  sourceName : List Char
  avgLines : List (List Char)
  values : List ℚ
  deriving DecidableEq

/-- The line loop of `summarize_from_text` (src/s_op.py:142-179) for a
given token, over the `splitlines()` of the pasted text, threading the
current source name: strip, skip blanks, consume `[File]` headers, filter,
collect the display line and (when extraction and conversion succeed) the
numeric value, in order.  For `token = pingToken` this is exactly the
source function; other tokens are the spec-modelled registry
instantiation. -/
def summarizeLinesTok (token : List Char) :
    List Char → List (List Char) → TextSummary
  | name, [] => ⟨name, [], []⟩
  | name, l :: ls =>
    let line := strip l
    if line.isEmpty then summarizeLinesTok token name ls
    else
      match headerName line with
      | some nm => summarizeLinesTok token (strip nm) ls
      | none =>
        if pasteFilterTok token line then
          let rest := summarizeLinesTok token name ls
          ⟨rest.sourceName, line :: rest.avgLines,
            match (pasteValueTok token line).bind toFloatQ with
            | some v => v :: rest.values
            | none => rest.values⟩
        else summarizeLinesTok token name ls

/-- `summarize_from_text` with the default source name `"Pasted"`. -/
def summarize_from_text (token : List Char) (lines : List (List Char)) :
    TextSummary :=
  summarizeLinesTok token "Pasted".toList lines

/-- The Sample sequence derived from retained text under a metric kind. -/
def deriveSamples (k : MetricKind) (lines : List (List Char)) : List ℚ :=
  (summarize_from_text (tokenOf k) lines).values

/-- `delta_pct` as computed by `compare_now` (src/s_op.py:355-362): defined
iff both means are defined and the baseline mean is nonzero. -/
def deltaQ (ma mb : Option ℚ) : Option ℚ :=
  match ma, mb with
  | some a, some b => if a ≠ 0 then some ((b - a) / a * 100) else none
  | _, _ => none

/-- Output of `compare_now` relevant to the engine (labels are rendered
into Tk widgets; the chart drawing is presentation only). -/
structure CompareOut where
  aName : List Char
  bName : List Char
  aVals : List ℚ
  bVals : List ℚ
  aMean : Option ℚ
  bMean : Option ℚ
  delta : Option ℚ
  deriving DecidableEq

/-- `compare_now` (src/s_op.py:342-369) on the two retained texts. -/
def compare_now (linesA linesB : List (List Char)) : CompareOut :=
  let sa := summarize_from_text pingToken linesA
  let sb := summarize_from_text pingToken linesB
  ⟨sa.sourceName, sb.sourceName, sa.values, sb.values,
    meanQ sa.values, meanQ sb.values,
    deltaQ (meanQ sa.values) (meanQ sb.values)⟩

/-- Decimal digit character of `k % 10`. -/
def digitChar (k : ℕ) : Char := Char.ofNat (48 + k % 10)

/-- Fueled decimal rendering of a natural number (`str(n)` in Python). -/
def natCharsF : ℕ → ℕ → List Char
  | 0, _ => []
  | f + 1, n =>
    if n < 10 then [digitChar n]
    else natCharsF f (n / 10) ++ [digitChar (n % 10)]

/-- `str(n)` for a natural number. -/
def natChars (n : ℕ) : List Char := natCharsF (n + 1) n

/-- Model of `f"{q:.6f}"` for the nonnegative means that arise: six decimal
places, rounding half up.  (Python rounds the IEEE double half to even; the
theorems below use only that the rendering consists of digits and a dot, so
the tie-breaking mode is immaterial.) -/
def fmt6 (q : ℚ) : List Char :=
  let u := (⌊q * 1000000 + 1 / 2⌋).toNat
  let fracs := natChars (u % 1000000)
  natChars (u / 1000000) ++
    '.' :: (List.replicate (6 - fracs.length) '0' ++ fracs)

/-- The count footer line written by `load_avg_into_summary`
(src/s_op.py:424). -/
def countLine (n : ℕ) : List Char :=
  "--- AvgResult Count (numeric): ".toList ++ natChars n ++ " ---".toList

/-- The mean footer line written by `load_avg_into_summary`
(src/s_op.py:425). -/
def meanLine (m : Option ℚ) : List Char :=
  "Mean AvgResult: ".toList ++
    (match m with
     | some q => fmt6 q
     | none => "N/A".toList)

/-- The text `load_avg_into_summary` renders into the summary widget
(src/s_op.py:419-425), as its list of lines: `[File]` header, blank line,
one display line per accepted AvgResult row, blank line, numeric count,
mean. -/
def renderSummaryLines (fileName : List Char) (rows : List PingRow) :
    List (List Char) :=
  let s := summarize_avgresults rows
  ("[File] ".toList ++ fileName) :: [] :: s.1.map (fun r => r.display) ++
    [[], countLine s.2.1.length, meanLine s.2.2]

/-- The two summary sides. -/
inductive Side
  | A
  | B
  deriving DecidableEq

/-- The durable session state: the retained text of each side (the content
of the two ScrolledText widgets), as lines. -/
structure AppState where
  textA : List (List Char)
  textB : List (List Char)
  deriving DecidableEq

/-- `load_avg_into_summary` (src/s_op.py:402-425): the widget of the chosen
side is cleared first; only then is the path checked — a missing path
surfaces an error dialog and returns with the side left empty.  Otherwise
the extraction's rendering is written.  The returned flag is the error
dialog.  (An existing but unreadable path raises out of `path.open` after
the same clearing, so the missing-path flag also covers that outcome.) -/
def load_avg_into_summary (side : Side) (pathExists : Bool)
    (fileName : List Char) (fileLines : List (List Char)) (st : AppState) :
    AppState × Bool :=
  let cleared : AppState :=
    match side with
    | .A => ⟨[], st.textB⟩
    | .B => ⟨st.textA, []⟩
  if !pathExists then (cleared, true)
  else
    let content := renderSummaryLines fileName (extract_ping_logs fileLines)
    (match side with
     | .A => ⟨content, st.textB⟩
     | .B => ⟨st.textA, content⟩,
     false)

/-- The per-line value contribution of `summarize_from_text`: strip, skip
blank and header lines, then the filter and the value extraction followed
by conversion. -/
def pasteLineValue (token : List Char) (l : List Char) : Option ℚ :=
  let s := strip l
  if s.isEmpty then none
  else
    match headerName s with
    | some _ => none
    | none =>
      if pasteFilterTok token s then (pasteValueTok token s).bind toFloatQ
      else none

/-- The constant payload prefix of a plainly-shaped AvgResult row. -/
def avgPre : List Char := "SpeedTestSKT : TestData Ping-AvgResult=".toList

/-- A plainly-shaped numeral: nonempty, digits and dots only, starting and
ending with a digit, at most one dot.  Python's `float` reads exactly such
strings (among digit-and-dot runs, also those starting or ending with the
single dot) without error. -/
def simpleNumeral (n : List Char) : Bool :=
  !n.isEmpty && n.all digitDot &&
    (match n.head? with
     | some c => c.isDigit
     | none => false) &&
    (match n.getLast? with
     | some c => c.isDigit
     | none => false) &&
    decide (n.count '.' ≤ 1)

/-- Well-formedness of one line for the round-trip statement: if the line
is accepted as an AvgResult row, its payload is the constant marker prefix,
`=`, and a plainly-shaped numeral. -/
def avgRowOKb (l : List Char) : Bool :=
  match rowOfLine l with
  | some r =>
    if r.typ = "Ping-AvgResult".toList then
      avgPre.isPrefixOf r.raw_msg && simpleNumeral (r.raw_msg.drop avgPre.length)
    else true
  | none => true

/-! ### Helper lemmas -/

/-- A successful search has a successful match position. -/
theorem reSearch_eq_some {α : Type} {f : List Char → Option α}
    {l : List Char} {a : α} (h : reSearch f l = some a) :
    ∃ i, f (l.drop i) = some a := by
  induction l with
  | nil => exact ⟨0, h⟩
  | cons c cs ih =>
    rw [reSearch] at h
    cases hf : f (c :: cs) with
    | some r => rw [hf] at h; exact ⟨0, by simpa using h ▸ hf⟩
    | none =>
      rw [hf] at h
      obtain ⟨i, hi⟩ := ih h
      exact ⟨i + 1, by simpa using hi⟩

/-- A match at the first position wins the search. -/
theorem reSearch_of_head {α : Type} {f : List Char → Option α}
    {l : List Char} {a : α} (h : f l = some a) : reSearch f l = some a := by
  cases l with
  | nil => exact h
  | cons c cs => rw [reSearch, h]

/-- Characterisation of the whitespace class. -/
theorem pyIsSpace_iff {c : Char} :
    pyIsSpace c = true ↔
      c = ' ' ∨ c = '\t' ∨ c = '\n' ∨ c = '\r' ∨ c = '\x0b' ∨ c = '\x0c' := by
  simp only [pyIsSpace, Bool.or_eq_true, beq_iff_eq]
  tauto

/-- Digits and dots are not whitespace. -/
theorem digitDot_not_space {c : Char} (h : digitDot c = true) :
    pyIsSpace c = false := by
  cases hps : pyIsSpace c with
  | false => rfl
  | true =>
    exfalso
    rcases pyIsSpace_iff.mp hps with rfl | rfl | rfl | rfl | rfl | rfl <;>
      exact absurd h (by decide)

/-- Digits and dots are not the equals sign. -/
theorem digitDot_ne_eq {c : Char} (h : digitDot c = true) : c ≠ '=' := by
  rintro rfl; exact absurd h (by decide)

/-- `takeWhile` over a list that satisfies the test everywhere, followed by a
failing head, stops exactly at the boundary. -/
theorem takeWhile_append_stop {p : Char → Bool} {n : List Char} {d : Char}
    (r : List Char) (hn : ∀ c ∈ n, p c = true) (hd : p d = false) :
    List.takeWhile p (n ++ d :: r) = n := by
  induction n with
  | nil => simp [List.takeWhile, hd]
  | cons a t ih =>
    have ha : p a = true := hn a (by simp)
    simp only [List.cons_append, List.takeWhile, ha, List.append_eq]
    rw [ih (fun c hc => hn c (by simp [hc]))]

/-! ### C2 -/

/-- C2: for every pair of sample lists, the mean is the arithmetic average
and is undefined (`none`), not zero, on the empty list; `compare_now`'s
delta equals `(meanB − meanA) / meanA × 100` exactly when both means exist
and `meanA ≠ 0` (giving `+20%` for means 100 and 120) and is undefined when
`meanA = 0` or either mean is missing.  Every branch is a total function of
its inputs; no branch is a partial/failing computation. -/
theorem C2_mean_and_delta :
    meanQ ([] : List ℚ) = none ∧
    (∀ (v : ℚ) (vs : List ℚ),
      meanQ (v :: vs) = some ((v :: vs).sum / ((v :: vs).length : ℚ))) ∧
    (∀ a b : ℚ, a ≠ 0 → deltaQ (some a) (some b) = some ((b - a) / a * 100)) ∧
    (∀ b : ℚ, deltaQ (some 0) (some b) = none) ∧
    (∀ mb, deltaQ none mb = none) ∧
    (∀ ma, deltaQ ma none = none) ∧
    deltaQ (some 100) (some 120) = some 20 ∧
    (∀ lA lB, (compare_now lA lB).delta =
      deltaQ (compare_now lA lB).aMean (compare_now lA lB).bMean) := by
  refine ⟨rfl, ?_, ?_, ?_, ?_, ?_, ?_, ?_⟩
  · intro v vs; simp [meanQ]
  · intro a b ha; simp [deltaQ, ha]
  · intro b; simp [deltaQ]
  · intro mb; cases mb <;> rfl
  · intro ma; cases ma <;> rfl
  · norm_num [deltaQ]
  · intro lA lB; rfl

/-- C2 witness: the characterisation applied at means 100 and 120. -/
theorem C2_mean_and_delta_witness :
    deltaQ (some 100) (some 120) = some ((120 - 100) / 100 * 100) :=
  C2_mean_and_delta.2.2.1 100 120 (by norm_num)

/-! ### C3 -/

/-- C3: re-deriving samples from the same retained text under a different
`MetricKind` yields that kind's sample sequence: the single line
`Up-AvgResult=10` gives no samples under Ping and the single sample `10`
under UplinkThroughput. -/
theorem C3_metric_kind_rederivation :
    deriveSamples .Ping ["Up-AvgResult=10".toList] = [] ∧
    deriveSamples .UplinkThroughput ["Up-AvgResult=10".toList] = [10] := by
  constructor <;> decide

/-! ### C9 -/

/-- C9 counterexample: with a missing path, `load_avg_into_summary` does
surface the error, but it has already cleared the affected side's retained
text, so the prior session state is not left unchanged. -/
theorem C9_counterexample :
    (load_avg_into_summary .A false "log.txt".toList []
      ⟨["old".toList], ["keep".toList]⟩).2 = true ∧
    (load_avg_into_summary .A false "log.txt".toList []
      ⟨["old".toList], ["keep".toList]⟩).1.textA = [] ∧
    (load_avg_into_summary .A false "log.txt".toList []
      ⟨["old".toList], ["keep".toList]⟩).1 ≠
      ⟨["old".toList], ["keep".toList]⟩ := by
  refine ⟨rfl, rfl, ?_⟩; decide

/-- C9 amended: on a missing (or unreadable) path the load surfaces a
blocking error and commits no MetricSeries, and the other side and the rest
of the session are untouched — but the affected side's retained text is
cleared before the path check, not preserved. -/
theorem C9_amended_error_clears_target_side :
    ∀ (st : AppState) (name : List Char) (fileLines : List (List Char)),
      load_avg_into_summary .A false name fileLines st =
        (⟨[], st.textB⟩, true) ∧
      load_avg_into_summary .B false name fileLines st =
        (⟨st.textA, []⟩, true) := by
  intro st name fileLines; exact ⟨rfl, rfl⟩

/-! ### C1, C4, C5 counterexamples -/

/-- C1 counterexample: a line whose payload contains
`Ping-AvgResult=1,234.50` is accepted by the file-mode filter, but the
extracted sample is `1`, not `1234.5`: the value capture `[\d.]+` stops at
the comma and nothing strips separators. -/
theorem C1_counterexample :
    (summarize_avgresults (extract_ping_logs
      ["01-02 03:04:05 SpeedTestSKT : TestData Ping-AvgResult=1,234.50".toList])).2.1
      = [(1 : ℚ)] ∧ (1 : ℚ) ≠ 2469 / 2 := by
  constructor
  · decide
  · norm_num

/-- C4 counterexample: a payload in which the token is not followed by `=`
(there is no `=` anywhere in the line) still yields the numeric sample `5`
in file mode, because the `=` in `AVG_RE` is optional. -/
theorem C4_counterexample :
    '=' ∉ "01-02 03:04:05 SpeedTestSKT : TestData Ping-AvgResult 5".toList ∧
    (summarize_avgresults (extract_ping_logs
      ["01-02 03:04:05 SpeedTestSKT : TestData Ping-AvgResult 5".toList])).2.1
      = [(5 : ℚ)] := by
  constructor <;> decide

/-- C5 counterexample: the file-mode filter accepts a payload with the
marker and token, but rejects the same payload after changing only the
letter case inside the token, so acceptance is not case-insensitive. -/
theorem C5_counterexample :
    pingMsgFilter "SpeedTestSKT : TestData Ping-AvgResult=5".toList = true ∧
    pingMsgFilter "SpeedTestSKT : TestData pING-aVGrESULT=5".toList = false := by
  constructor <;> decide

/-! ### C7 counterexample -/

/-- C7 counterexample: one accepted AvgResult row whose file-mode value
extraction fails (`Ping-AvgResult=x 12`) produces a file-mode sample list
`[]` with no mean, yet paste-mode summarisation of the rendered output of
that very extraction finds the sample `12` (the looser paste value rule
accepts the whitespace before `12`), so the round trip changes both the
sample sequence and the mean. -/
theorem C7_counterexample :
    (summarize_avgresults (extract_ping_logs
      ["01-02 03:04:05 SpeedTestSKT : TestData Ping-AvgResult=x 12".toList])).2.1
      = ([] : List ℚ) ∧
    (summarize_from_text pingToken (renderSummaryLines "log.txt".toList
      (extract_ping_logs
        ["01-02 03:04:05 SpeedTestSKT : TestData Ping-AvgResult=x 12".toList]))).values
      = [(12 : ℚ)] ∧
    meanQ (summarize_from_text pingToken (renderSummaryLines "log.txt".toList
      (extract_ping_logs
        ["01-02 03:04:05 SpeedTestSKT : TestData Ping-AvgResult=x 12".toList]))).values
      ≠ (summarize_avgresults (extract_ping_logs
        ["01-02 03:04:05 SpeedTestSKT : TestData Ping-AvgResult=x 12".toList])).2.2 := by
  refine ⟨by decide, by decide, by decide⟩

/-! ### C6 -/

/-- Helper: the value list of the paste summariser is the in-order
`filterMap` of the per-line extraction. -/
theorem summarize_values_eq_filterMap (token name0 : List Char)
    (lines : List (List Char)) :
    (summarizeLinesTok token name0 lines).values =
      lines.filterMap (pasteLineValue token) := by
  induction lines generalizing name0 with
  | nil => rfl
  | cons l ls ih =>
    rw [List.filterMap_cons]
    by_cases h1 : (strip l).isEmpty
    · simp [summarizeLinesTok, pasteLineValue, h1, ih]
    · cases h2 : headerName (strip l) with
      | some nm => simp [summarizeLinesTok, pasteLineValue, h1, h2, ih]
      | none =>
        by_cases h3 : pasteFilterTok token (strip l)
        · cases h4 : (pasteValueTok token (strip l)).bind toFloatQ <;>
            simp [summarizeLinesTok, pasteLineValue, h1, h2, h3, h4, ih]
        · simp [summarizeLinesTok, pasteLineValue, h1, h2, h3, ih]

/-- C6: paste summarisation emits samples in source line order — the value
list is literally the in-order `filterMap` of the per-line extraction over
the lines — and the two-line example `Ping-AvgResult=5`, `Ping-AvgResult=10`
yields `[5, 10]`. -/
theorem C6_paste_order_preserved :
    (∀ (token name0 : List Char) (lines : List (List Char)),
      (summarizeLinesTok token name0 lines).values =
        lines.filterMap (pasteLineValue token)) ∧
    (summarize_from_text pingToken
      ["Ping-AvgResult=5".toList, "Ping-AvgResult=10".toList]).values
      = [5, 10] := by
  exact ⟨fun token name0 lines =>
    summarize_values_eq_filterMap token name0 lines, by decide⟩

/-! ### C8 -/

/-- C8: a line with the tag marker but no timestamp, or with a timestamp
but no tag marker, contributes no row at all (hence neither a display
record nor a sample), and the surrounding lines extract exactly as if the
line were absent; extraction is a total function, so no error arises. -/
theorem C8_unmatched_line_invisible :
    ∀ (pre post : List (List Char)) (l : List Char),
      ((speedSearch l).isSome ∧ findDateTime l = none) ∨
      ((findDateTime l).isSome ∧ speedSearch l = none) →
      extract_ping_logs (pre ++ l :: post) = extract_ping_logs (pre ++ post) ∧
      (summarize_avgresults (extract_ping_logs (pre ++ l :: post))).2.1 =
        (summarize_avgresults (extract_ping_logs (pre ++ post))).2.1 := by
  intro pre post l h
  have hrow : rowOfLine l = none := by
    rcases h with ⟨-, hd⟩ | ⟨-, hs⟩
    · simp [rowOfLine, hd]
    · cases hdt : findDateTime l with
      | none => simp [rowOfLine, hdt]
      | some dt => cases dt; simp [rowOfLine, hdt, hs]
  have hx : extract_ping_logs (pre ++ l :: post) =
      extract_ping_logs (pre ++ post) := by
    unfold extract_ping_logs
    rw [List.filterMap_append, List.filterMap_append, List.filterMap_cons, hrow]
  exact ⟨hx, by rw [hx]⟩

/-- C8 witness: a line carrying the tag marker but no timestamp between two
well-formed lines is invisible to extraction. -/
theorem C8_unmatched_line_invisible_witness :
    extract_ping_logs
      (["01-02 03:04:05 SpeedTestSKT : TestData Ping-AvgResult=5".toList] ++
        "junk SpeedTestSKT : TestData Ping-AvgResult=1".toList ::
        ["01-02 03:04:06 SpeedTestSKT : TestData Ping-AvgResult=7".toList]) =
    extract_ping_logs
      (["01-02 03:04:05 SpeedTestSKT : TestData Ping-AvgResult=5".toList] ++
        ["01-02 03:04:06 SpeedTestSKT : TestData Ping-AvgResult=7".toList]) :=
  (C8_unmatched_line_invisible
    ["01-02 03:04:05 SpeedTestSKT : TestData Ping-AvgResult=5".toList]
    ["01-02 03:04:06 SpeedTestSKT : TestData Ping-AvgResult=7".toList]
    "junk SpeedTestSKT : TestData Ping-AvgResult=1".toList
    (Or.inl ⟨by decide, by decide⟩)).1

/-! ### C1 and C4 amended -/

/-- Helper: `AVG_RE.search` on a string that starts with the literal
matches at position zero, and the capture is computed from the tail. -/
theorem avgSearch_at_head (t : List Char) :
    avgSearch ("Ping-AvgResult".toList ++ t) = some (avgCapture t) := by
  apply reSearch_of_head
  unfold avgAt
  rw [if_pos (List.isPrefixOf_iff_prefix.mpr ⟨t, rfl⟩)]
  rw [show (14 : ℕ) = ("Ping-AvgResult".toList).length from rfl, List.drop_left]

/-- Helper: the capture when a digit-or-dot starts right at the tail. -/
theorem avgCapture_run_head {c : Char} {u : List Char} (hc : digitDot c = true) :
    avgCapture (c :: u) = some (c :: u.takeWhile digitDot) := by
  have hcs : pyIsSpace c = false := digitDot_not_space hc
  have hceq : ¬(c = '=') := digitDot_ne_eq hc
  simp [avgCapture, List.dropWhile_cons, List.takeWhile_cons, hcs, hceq, hc]

/-- Helper: the capture after a literal `=` separator. -/
theorem avgCapture_eq_sep {c : Char} {u : List Char} (hc : digitDot c = true) :
    avgCapture ('=' :: c :: u) = some (c :: u.takeWhile digitDot) := by
  have hcs : pyIsSpace c = false := digitDot_not_space hc
  have hceq : ¬(c = '=') := digitDot_ne_eq hc
  simp [avgCapture, List.dropWhile_cons, List.takeWhile_cons, hcs, hceq, hc,
    show pyIsSpace '=' = false from by decide]

/-- Helper: the capture after a bare space separator. -/
theorem avgCapture_sp_sep {c : Char} {u : List Char} (hc : digitDot c = true) :
    avgCapture (' ' :: c :: u) = some (c :: u.takeWhile digitDot) := by
  have hcs : pyIsSpace c = false := digitDot_not_space hc
  have hceq : ¬(c = '=') := digitDot_ne_eq hc
  simp [avgCapture, List.dropWhile_cons, List.takeWhile_cons, hcs, hceq, hc,
    show pyIsSpace ' ' = true from by decide]

/-- C1 amended: the extracted value is the maximal digit-and-dot run after
the token (and the optional whitespace and `=`), read as a decimal number;
a comma is not stripped but terminates the run, so a payload containing
`Ping-AvgResult=1,234.50` yields the sample `1`, not `1234.5`. -/
theorem C1_amended_value_stops_at_comma :
    (∀ (n more : List Char), n ≠ [] → (∀ c ∈ n, digitDot c = true) →
      avgSearch ("Ping-AvgResult=".toList ++ n ++ ',' :: more)
        = some (some n)) ∧
    (summarize_avgresults (extract_ping_logs
      ["01-02 03:04:05 SpeedTestSKT : TestData Ping-AvgResult=1,234.50".toList])).2.1
      = [(1 : ℚ)] := by
  constructor
  · intro n more hne hdd
    obtain ⟨c, n', rfl⟩ := List.exists_cons_of_ne_nil hne
    have hc : digitDot c = true := hdd c (by simp)
    have hsplit : "Ping-AvgResult=".toList ++ (c :: n') ++ ',' :: more =
        "Ping-AvgResult".toList ++ ('=' :: c :: (n' ++ ',' :: more)) := rfl
    rw [hsplit, avgSearch_at_head, avgCapture_eq_sep hc,
      takeWhile_append_stop more (fun x hx => hdd x (by simp [hx])) (by decide)]
  · decide

/-- C1 amended witness: the general run statement applied at the literal
`1,234.50` tail, giving the capture `1`. -/
theorem C1_amended_value_stops_at_comma_witness :
    avgSearch ("Ping-AvgResult=".toList ++ ['1'] ++ ',' :: "234.50".toList)
      = some (some ['1']) :=
  C1_amended_value_stops_at_comma.1 ['1'] "234.50".toList (by decide) (by decide)

/-- C4 amended: the `=` after the token is optional in file mode — a value
is extracted whether the run follows `=`, a whitespace, or the token
directly; only a character that is neither whitespace nor `=` nor a digit
or dot blocks extraction.  The whitespace-separated example line yields the
sample `5` with no `=` present. -/
theorem C4_amended_equals_optional :
    (∀ (c : Char) (u : List Char), digitDot c = true →
      (∀ x ∈ u, digitDot x = true) →
      avgCapture ('=' :: c :: u) = some (c :: u) ∧
      avgCapture (' ' :: c :: u) = some (c :: u) ∧
      avgCapture (c :: u) = some (c :: u)) ∧
    (∀ (c : Char) (rest : List Char), pyIsSpace c = false → ¬(c = '=') →
      digitDot c = false → avgCapture (c :: rest) = none) ∧
    (summarize_avgresults (extract_ping_logs
      ["01-02 03:04:05 SpeedTestSKT : TestData Ping-AvgResult 5".toList])).2.1
      = [(5 : ℚ)] := by
  refine ⟨?_, ?_, by decide⟩
  · intro c u hc hu
    have hrun : List.takeWhile digitDot u = u :=
      List.takeWhile_eq_self_iff.mpr hu
    exact ⟨by rw [avgCapture_eq_sep hc, hrun], by rw [avgCapture_sp_sep hc, hrun],
      by rw [avgCapture_run_head hc, hrun]⟩
  · intro c rest hcs hceq hcd
    simp [avgCapture, List.dropWhile_cons, List.takeWhile_cons, hcs, hceq, hcd]

/-- C4 amended witness: the run statement applied at the run `5` after a
bare whitespace separator. -/
theorem C4_amended_equals_optional_witness :
    avgCapture (' ' :: '5' :: []) = some ('5' :: []) :=
  ((C4_amended_equals_optional.1 '5' [] (by decide) (by decide)).2.1)

/-! ### C5 amended -/

/-- Helper: a pattern that starts some suffix of `u` also starts some
suffix of any list that `u` is a suffix of. -/
theorem pat_in_of_suffix {pat u p : List Char} (hp : pat <+: u)
    (hs : u <:+ p) : ∃ i, pat <+: p.drop i := by
  obtain ⟨pre, rfl⟩ := hs
  exact ⟨pre.length, by rwa [List.drop_left]⟩

/-- C5 amended: the file-mode filter accepts exactly the payloads
containing `SpeedTestSKT`, optional whitespace, `:`, optional whitespace,
`TestData`, optional whitespace, `Ping-` and one of the three message
alternatives, all with the exact letter case of the pattern — only the
first letter of `Request`/`Response` is case-flexible — and with no
trailing word boundary after `AvgResult`.  Concretely: both `Ping-request1`
and `Ping-Request1` are accepted; a lowercased marker is rejected;
`Ping-AvgResultXYZ` (token not a whole word) is accepted; and every
accepted payload contains the case-exact fragments `SpeedTestSKT`,
`TestData` and `Ping-`. -/
theorem C5_amended_filter_case_sensitive :
    pingMsgFilter "SpeedTestSKT : TestData Ping-request1".toList = true ∧
    pingMsgFilter "SpeedTestSKT : TestData Ping-Request1".toList = true ∧
    pingMsgFilter "speedtestskt : testdata Ping-AvgResult=5".toList = false ∧
    pingMsgFilter "SpeedTestSKT : TestData Ping-AvgResultXYZ".toList = true ∧
    (∀ p : List Char, pingMsgFilter p = true →
      (∃ i, "SpeedTestSKT".toList <+: p.drop i) ∧
      (∃ i, "TestData".toList <+: p.drop i) ∧
      (∃ i, "Ping-".toList <+: p.drop i)) := by
  refine ⟨by decide, by decide, by decide, by decide, ?_⟩
  intro p h
  rw [pingMsgFilter, Option.isSome_iff_exists] at h
  obtain ⟨a, ha⟩ := h
  obtain ⟨i, hi⟩ := reSearch_eq_some ha
  have hf : filterAt (p.drop i) = true := by
    by_cases hc : filterAt (p.drop i) = true
    · exact hc
    · rw [if_neg hc] at hi; exact absurd hi (by simp)
  have hsufs : p.drop i <:+ p := List.drop_suffix i p
  unfold filterAt at hf
  split at hf
  case isFalse => exact absurd hf (by simp)
  case isTrue h1 =>
    split at hf
    case h_2 => exact absurd hf (by simp)
    case h_1 r1 heq =>
      have hr1 : r1 <:+ p := by
        have h2 : ':' :: r1 <:+ p.drop i := by
          rw [← heq]
          exact (List.dropWhile_suffix pyIsSpace).trans (List.drop_suffix 12 _)
        exact (List.suffix_cons ':' r1).trans (h2.trans hsufs)
      dsimp only [] at hf
      split at hf
      case isFalse => exact absurd hf (by simp)
      case isTrue h3 =>
        split at hf
        case isFalse => exact absurd hf (by simp)
        case isTrue h4 =>
          have ht : r1.dropWhile pyIsSpace <:+ p :=
            (List.dropWhile_suffix pyIsSpace).trans hr1
          have hu : ((r1.dropWhile pyIsSpace).drop 8).dropWhile pyIsSpace <:+ p :=
            ((List.dropWhile_suffix pyIsSpace).trans
              (List.drop_suffix 8 _)).trans ht
          exact ⟨pat_in_of_suffix (List.isPrefixOf_iff_prefix.mp h1) hsufs,
            pat_in_of_suffix (List.isPrefixOf_iff_prefix.mp h3) ht,
            pat_in_of_suffix (List.isPrefixOf_iff_prefix.mp h4) hu⟩

/-- C5 amended witness: the general fragment statement applied at an
accepted concrete payload. -/
theorem C5_amended_filter_case_sensitive_witness :
    (∃ i, "SpeedTestSKT".toList <+:
      ("SpeedTestSKT : TestData Ping-AvgResult=5".toList).drop i) ∧
    (∃ i, "TestData".toList <+:
      ("SpeedTestSKT : TestData Ping-AvgResult=5".toList).drop i) ∧
    (∃ i, "Ping-".toList <+:
      ("SpeedTestSKT : TestData Ping-AvgResult=5".toList).drop i) :=
  C5_amended_filter_case_sensitive.2.2.2.2
    "SpeedTestSKT : TestData Ping-AvgResult=5".toList (by decide)

/-! ### C10: normalisation machinery -/

/-- Fuel irrelevance for the normalisation scan: any fuel at least the
length of the list gives the same result. -/
theorem subCanonF_congr (s : List Char) :
    ∀ (f g : ℕ) (l : List Char), l.length ≤ f → l.length ≤ g →
      subCanonF s f l = subCanonF s g l := by
  intro f
  induction f with
  | zero =>
    intro g l hf _
    have : l = [] := List.eq_nil_of_length_eq_zero (Nat.le_zero.mp hf)
    subst this
    cases g <;> rfl
  | succ f ih =>
    intro g l hf hg
    cases l with
    | nil => cases g <;> rfl
    | cons c cs =>
      cases g with
      | zero => exact absurd hg (by simp)
      | succ g =>
        rw [subCanonF, subCanonF]
        by_cases h : (c :: cs).take (patLen s) = patLow s ∨
            (c :: cs).take (patLen s) = patUp s
        · rw [if_pos h, if_pos h]
          have hL : 1 ≤ patLen s := by simp [patLen]; omega
          have hlen : ((c :: cs).drop (patLen s)).length ≤ f := by
            rw [List.length_drop]
            have := List.length_cons c cs
            omega
          have hlen' : ((c :: cs).drop (patLen s)).length ≤ g := by
            rw [List.length_drop]
            have := List.length_cons c cs
            omega
          rw [ih g _ hlen hlen']
        · rw [if_neg h, if_neg h]
          have h1 : cs.length ≤ f := by
            have := List.length_cons c cs; omega
          have h2 : cs.length ≤ g := by
            have := List.length_cons c cs; omega
          rw [ih g cs h1 h2]

/-- Unfolding of the normalisation scan on a nonempty list. -/
theorem subCanon_cons (s : List Char) (c : Char) (cs : List Char) :
    subCanon s (c :: cs) =
      if (c :: cs).take (patLen s) = patLow s ∨
          (c :: cs).take (patLen s) = patUp s then
        patUp s ++ subCanon s ((c :: cs).drop (patLen s))
      else c :: subCanon s cs := by
  show subCanonF s (cs.length + 1) (c :: cs) = _
  rw [subCanonF]
  by_cases h : (c :: cs).take (patLen s) = patLow s ∨
      (c :: cs).take (patLen s) = patUp s
  · rw [if_pos h, if_pos h]
    congr 1
    apply subCanonF_congr
    · have hp : patLen s = 6 + s.length := rfl
      have hd : ((c :: cs).drop (patLen s)).length =
          cs.length + 1 - patLen s := by
        rw [List.length_drop, List.length_cons]
      omega
    · exact le_rfl
  · rw [if_neg h, if_neg h]
    rfl

/-- Length of the two pattern forms. -/
theorem patUp_length (s : List Char) : (patUp s).length = patLen s := by
  simp only [patUp, patLen, List.length_cons]
  omega

/-- Length of the lowercase pattern form. -/
theorem patLow_length (s : List Char) : (patLow s).length = patLen s := by
  simp only [patLow, patLen, List.length_cons]
  omega

/-- A successful pattern window certifies that the list is long enough. -/
theorem patLen_le_of_take {s l w : List Char}
    (h : l.take (patLen s) = w) (hw : w.length = patLen s) :
    patLen s ≤ l.length := by
  have := congrArg List.length h
  rw [List.length_take] at this
  omega

/-- A matched position certifies that the list is long enough. -/
theorem patLen_le_of_cond {s l : List Char}
    (h : l.take (patLen s) = patLow s ∨ l.take (patLen s) = patUp s) :
    patLen s ≤ l.length := by
  rcases h with h | h
  · exact patLen_le_of_take h (patLow_length s)
  · exact patLen_le_of_take h (patUp_length s)

/-- The normalisation scan preserves length. -/
theorem subCanon_length (s : List Char) (l : List Char) :
    (subCanon s l).length = l.length := by
  have main : ∀ (n : ℕ) (l : List Char), l.length ≤ n →
      (subCanon s l).length = l.length := by
    intro n
    induction n with
    | zero =>
      intro l h
      have : l = [] := List.eq_nil_of_length_eq_zero (Nat.le_zero.mp h)
      subst this; rfl
    | succ n ih =>
      intro l h
      cases l with
      | nil => rfl
      | cons c cs =>
        rw [subCanon_cons]
        by_cases hm : (c :: cs).take (patLen s) = patLow s ∨
            (c :: cs).take (patLen s) = patUp s
        · rw [if_pos hm]
          have hle : patLen s ≤ (c :: cs).length := patLen_le_of_cond hm
          have hp : patLen s = 6 + s.length := rfl
          have hd : ((c :: cs).drop (patLen s)).length =
              cs.length + 1 - patLen s := by
            rw [List.length_drop, List.length_cons]
          have hrec := ih ((c :: cs).drop (patLen s)) (by
            rw [hd]; simp at h; omega)
          have hle2 : patLen s ≤ cs.length + 1 := by
            rw [List.length_cons] at hle; exact hle
          rw [List.length_append, patUp_length, hrec, hd, List.length_cons]
          omega
        · rw [if_neg hm]
          have hrec := ih cs (by simp at h; omega)
          simp [hrec]
  exact main l.length l le_rfl

/-- Outside position 5 (the case-flexible letter), the two pattern forms
agree pointwise. -/
theorem patUp_getElem_congr {s : List Char} {i : ℕ} (h5 : i ≠ 5) :
    (patUp s)[i]? = (patLow s)[i]? := by
  rcases i with _ | (_ | (_ | (_ | (_ | (_ | i)))))
  · rfl
  · rfl
  · rfl
  · rfl
  · rfl
  · exact absurd rfl h5
  · simp [patUp, patLow]

/-- The normalisation scan changes a character only from `r` to `R`, and
only at positions at least 5. -/
theorem subCanon_get (s : List Char) (l : List Char) (i : ℕ) :
    (subCanon s l)[i]? = l[i]? ∨
      ((subCanon s l)[i]? = some 'R' ∧ 5 ≤ i ∧ l[i]? = some 'r') := by
  have main : ∀ (n : ℕ) (l : List Char), l.length ≤ n → ∀ i,
      (subCanon s l)[i]? = l[i]? ∨
        ((subCanon s l)[i]? = some 'R' ∧ 5 ≤ i ∧ l[i]? = some 'r') := by
    intro n
    induction n with
    | zero =>
      intro l h i
      have : l = [] := List.eq_nil_of_length_eq_zero (Nat.le_zero.mp h)
      subst this; left; rfl
    | succ n ih =>
      intro l h i
      cases l with
      | nil => left; rfl
      | cons c cs =>
        rw [subCanon_cons]
        by_cases hm : (c :: cs).take (patLen s) = patLow s ∨
            (c :: cs).take (patLen s) = patUp s
        · rw [if_pos hm]
          have hle : patLen s ≤ (c :: cs).length := patLen_le_of_cond hm
          have hTake : (c :: cs).take (patLen s) ++ (c :: cs).drop (patLen s)
              = c :: cs := List.take_append_drop _ _
          by_cases hi : i < patLen s
          · have hout : (patUp s ++ subCanon s ((c :: cs).drop (patLen s)))[i]?
                = (patUp s)[i]? := by
              rw [List.getElem?_append, patUp_length, if_pos hi]
            have hl : ((c :: cs).take (patLen s))[i]? = (c :: cs)[i]? := by
              rw [List.getElem?_take, if_pos hi]
            rcases hm with hm | hm
            · by_cases h5 : i = 5
              · subst h5
                right
                refine ⟨by rw [hout]; simp [patUp], le_rfl, ?_⟩
                rw [← hl, hm]; simp [patLow]
              · left
                rw [hout, ← hl, hm, patUp_getElem_congr h5]
            · left
              rw [hout, ← hl, hm]
          · have hiL : patLen s ≤ i := le_of_not_lt hi
            have hout : (patUp s ++ subCanon s ((c :: cs).drop (patLen s)))[i]?
                = (subCanon s ((c :: cs).drop (patLen s)))[i - patLen s]? := by
              rw [List.getElem?_append_right (by rw [patUp_length]; exact hiL),
                patUp_length]
            have hlr : (c :: cs)[i]? = ((c :: cs).drop (patLen s))[i - patLen s]? := by
              conv_lhs => rw [← hTake]
              rw [List.getElem?_append_right
                (by rw [List.length_take, Nat.min_eq_left hle]; exact hiL),
                List.length_take, Nat.min_eq_left hle]
            have hd : ((c :: cs).drop (patLen s)).length ≤ n := by
              rw [List.length_drop, List.length_cons]
              have hp : patLen s = 6 + s.length := rfl
              simp only [List.length_cons] at h
              omega
            rcases ih _ hd (i - patLen s) with hh | ⟨h1, h2, h3⟩
            · left; rw [hout, hlr, hh]
            · right
              refine ⟨by rw [hout]; exact h1, ?_, by rw [hlr]; exact h3⟩
              have hp : patLen s = 6 + s.length := rfl
              omega
        · rw [if_neg hm]
          cases i with
          | zero => left; rw [List.getElem?_cons_zero, List.getElem?_cons_zero]
          | succ i =>
            rw [List.getElem?_cons_succ, List.getElem?_cons_succ]
            have hcs : cs.length ≤ n := by
              simp only [List.length_cons] at h; omega
            rcases ih cs hcs i with hh | ⟨h1, h2, h3⟩
            · left; exact hh
            · right; exact ⟨h1, by omega, h3⟩
  exact main l.length l le_rfl i

/-- A window without `R` seen in the scan's output was already present in
the input, since the scan only writes `R`s. -/
theorem window_reflect {X l w : List Char} (hRw : 'R' ∉ w)
    (hpt : ∀ j : ℕ, X[j]? = l[j]? ∨ X[j]? = some 'R')
    (p : ℕ) (h : (X.drop p).take w.length = w) :
    (l.drop p).take w.length = w := by
  apply List.ext_getElem?
  intro n
  have hXn := congrArg (fun t => t[n]?) h
  simp only [List.getElem?_take] at hXn
  rw [List.getElem?_take]
  by_cases hn : n < w.length
  · rw [if_pos hn] at hXn ⊢
    rw [List.getElem?_drop] at hXn ⊢
    have hw : w[n]? = some w[n] := List.getElem?_eq_getElem hn
    rcases hpt (p + n) with he | he
    · rw [← he]; exact hXn
    · exfalso
      rw [he, hw] at hXn
      have : 'R' = w[n] := Option.some.inj hXn
      exact hRw (this ▸ List.getElem_mem hn)
  · rw [if_neg hn] at hXn ⊢
    exact hXn

/-- The two pattern forms differ (at the case-flexible letter). -/
theorem patUp_ne_patLow (s : List Char) : patUp s ≠ patLow s := by
  intro h
  unfold patUp patLow at h
  injection h with _ h
  injection h with _ h
  injection h with _ h
  injection h with _ h
  injection h with _ h
  injection h with h5 _
  exact absurd h5 (by decide)

/-- Past its head, the canonical pattern contains no `P`. -/
theorem patUp_no_P {s : List Char} (hP : 'P' ∉ s) {p : ℕ} (hp : 1 ≤ p) :
    (patUp s)[p]? ≠ some 'P' := by
  cases p with
  | zero => omega
  | succ p =>
    show ('P' :: 'i' :: 'n' :: 'g' :: '-' :: 'R' :: s)[p + 1]? ≠ some 'P'
    rw [List.getElem?_cons_succ]
    intro h
    obtain ⟨hlt, heq⟩ := List.getElem?_eq_some_iff.mp h
    have hmem : 'P' ∈ 'i' :: 'n' :: 'g' :: '-' :: 'R' :: s :=
      heq ▸ List.getElem_mem hlt
    simp only [List.mem_cons] at hmem
    rcases hmem with h | h | h | h | h | h
    iterate 5 exact absurd h (by decide)
    exact hP h

/-- The lowercase pattern contains no `R` when the suffix has none. -/
theorem R_not_mem_patLow {s : List Char} (hR : 'R' ∉ s) :
    'R' ∉ patLow s := by
  intro hmem
  simp only [patLow, List.mem_cons] at hmem
  rcases hmem with h | h | h | h | h | h | h
  iterate 6 exact absurd h (by decide)
  exact hR h

/-- The scan's output contains no lowercase occurrence of the pattern. -/
theorem subCanon_no_low (s : List Char) (hP : 'P' ∉ s) (hR : 'R' ∉ s)
    (l : List Char) :
    ∀ p, ((subCanon s l).drop p).take (patLen s) ≠ patLow s := by
  have main : ∀ (n : ℕ) (l : List Char), l.length ≤ n →
      ∀ p, ((subCanon s l).drop p).take (patLen s) ≠ patLow s := by
    intro n
    induction n with
    | zero =>
      intro l h p
      have : l = [] := List.eq_nil_of_length_eq_zero (Nat.le_zero.mp h)
      subst this
      intro heq
      rw [show subCanon s [] = [] from rfl, List.drop_nil, List.take_nil] at heq
      have h2 : (0 : ℕ) = patLen s := by
        simpa [patLow_length] using congrArg List.length heq
      have hpl : patLen s = 6 + s.length := rfl
      omega
    | succ n ih =>
      intro l h p
      cases l with
      | nil =>
        intro heq
        rw [show subCanon s [] = [] from rfl, List.drop_nil, List.take_nil] at heq
        have h2 : (0 : ℕ) = patLen s := by
          simpa [patLow_length] using congrArg List.length heq
        have hpl : patLen s = 6 + s.length := rfl
        omega
      | cons c cs =>
        rw [subCanon_cons]
        by_cases hm : (c :: cs).take (patLen s) = patLow s ∨
            (c :: cs).take (patLen s) = patUp s
        · rw [if_pos hm]
          have hle : patLen s ≤ (c :: cs).length := patLen_le_of_cond hm
          have hpl : patLen s = 6 + s.length := rfl
          have hd : ((c :: cs).drop (patLen s)).length ≤ n := by
            rw [List.length_drop, List.length_cons]
            simp only [List.length_cons] at h
            omega
          by_cases hpL : p < patLen s
          · rcases Nat.eq_zero_or_pos p with rfl | hp1
            · rw [List.drop_zero, ← patUp_length s, List.take_left]
              exact patUp_ne_patLow s
            · intro heq
              have h0 := congrArg (fun t => t[0]?) heq
              simp only [List.getElem?_take] at h0
              rw [if_pos (show 0 < patLen s by rw [hpl]; omega),
                List.getElem?_drop, Nat.add_zero] at h0
              have hplow0 : (patLow s)[0]? = some 'P' := rfl
              rw [hplow0] at h0
              have happ : (patUp s ++ subCanon s ((c :: cs).drop (patLen s)))[p]?
                  = (patUp s)[p]? := by
                rw [List.getElem?_append, patUp_length, if_pos hpL]
              rw [happ] at h0
              exact patUp_no_P hP hp1 h0
          · have hge : patLen s ≤ p := le_of_not_lt hpL
            rw [List.drop_append_eq_append_drop, patUp_length,
              List.drop_eq_nil_of_le (by rw [patUp_length]; exact hge),
              List.nil_append]
            exact ih _ hd (p - patLen s)
        · rw [if_neg hm]
          have hcs : cs.length ≤ n := by
            simp only [List.length_cons] at h; omega
          cases p with
          | succ p => exact ih cs hcs p
          | zero =>
            intro heq
            rw [List.drop_zero] at heq
            have hw : 'R' ∉ patLow s := R_not_mem_patLow hR
            have hpt : ∀ j : ℕ, (c :: subCanon s cs)[j]? = (c :: cs)[j]? ∨
                (c :: subCanon s cs)[j]? = some 'R' := by
              intro j
              cases j with
              | zero => left; rw [List.getElem?_cons_zero, List.getElem?_cons_zero]
              | succ j =>
                rw [List.getElem?_cons_succ, List.getElem?_cons_succ]
                exact (subCanon_get s cs j).imp id (fun hh => hh.1)
            have heq' : ((c :: subCanon s cs).drop 0).take (patLow s).length
                = patLow s := by
              rw [List.drop_zero, patLow_length]; exact heq
            have := window_reflect hw hpt 0 heq'
            rw [List.drop_zero, patLow_length] at this
            exact hm (Or.inl this)
  exact main l.length l le_rfl

/-- Without lowercase occurrences of the pattern, the scan is the
identity (every match is already canonical and is rewritten to itself). -/
theorem subCanon_id_of_no_low (s : List Char) (l : List Char)
    (hnl : ∀ p, (l.drop p).take (patLen s) ≠ patLow s) :
    subCanon s l = l := by
  have main : ∀ (n : ℕ) (l : List Char), l.length ≤ n →
      (∀ p, (l.drop p).take (patLen s) ≠ patLow s) →
      subCanon s l = l := by
    intro n
    induction n with
    | zero =>
      intro l h _
      have : l = [] := List.eq_nil_of_length_eq_zero (Nat.le_zero.mp h)
      subst this; rfl
    | succ n ih =>
      intro l h hnl
      cases l with
      | nil => rfl
      | cons c cs =>
        rw [subCanon_cons]
        by_cases hm : (c :: cs).take (patLen s) = patLow s ∨
            (c :: cs).take (patLen s) = patUp s
        · rcases hm with hlow | hup
          · exact absurd (by rw [List.drop_zero]; exact hlow) (hnl 0)
          · rw [if_pos (Or.inr hup)]
            have hle : patLen s ≤ (c :: cs).length :=
              patLen_le_of_take hup (patUp_length s)
            have hpl : patLen s = 6 + s.length := rfl
            have hd : ((c :: cs).drop (patLen s)).length ≤ n := by
              rw [List.length_drop, List.length_cons]
              simp only [List.length_cons] at h
              omega
            have hnl' : ∀ p,
                (((c :: cs).drop (patLen s)).drop p).take (patLen s) ≠ patLow s := by
              intro p
              rw [List.drop_drop]
              exact hnl (patLen s + p)
            rw [ih _ hd hnl', ← hup, List.take_append_drop]
        · rw [if_neg hm]
          have hcs : cs.length ≤ n := by
            simp only [List.length_cons] at h; omega
          have hnl' : ∀ p, (cs.drop p).take (patLen s) ≠ patLow s := by
            intro p
            exact hnl (p + 1)
          rw [ih cs hcs hnl']
  exact main l.length l le_rfl hnl

/-! ### C10 -/

/-- C10: display normalisation is idempotent on every payload —
`Ping-[Rr]equest` and `Ping-[Rr]esponse` substitution leaves no lowercase
occurrence behind and rewrites canonical occurrences to themselves — and
on the two example payloads it behaves as stated. -/
theorem C10_normalize_idempotent :
    (∀ l : List Char, normalizeMsg (normalizeMsg l) = normalizeMsg l) ∧
    normalizeMsg "Ping-Request5".toList = "Ping-Request5".toList ∧
    normalizeMsg "Ping-request5".toList = "Ping-Request5".toList := by
  refine ⟨?_, by decide, by decide⟩
  intro l
  have hPq : 'P' ∉ "equest".toList := by decide
  have hRq : 'R' ∉ "equest".toList := by decide
  have hPo : 'P' ∉ "esponse".toList := by decide
  have hRo : 'R' ∉ "esponse".toList := by decide
  unfold normalizeMsg
  have hnl1 := subCanon_no_low "equest".toList hPq hRq l
  have hnl2 : ∀ p,
      ((subCanon "esponse".toList (subCanon "equest".toList l)).drop p).take
        (patLen "equest".toList) ≠ patLow "equest".toList := by
    intro p heq
    have hw : 'R' ∉ patLow "equest".toList := by decide
    have hpt : ∀ j,
        (subCanon "esponse".toList (subCanon "equest".toList l))[j]? =
          (subCanon "equest".toList l)[j]? ∨
        (subCanon "esponse".toList (subCanon "equest".toList l))[j]? =
          some 'R' :=
      fun j => (subCanon_get "esponse".toList _ j).imp id (fun hh => hh.1)
    have heq' := window_reflect hw hpt p
      (by rw [patLow_length]; exact heq)
    rw [patLow_length] at heq'
    exact hnl1 p heq'
  have e1 : subCanon "equest".toList
      (subCanon "esponse".toList (subCanon "equest".toList l)) =
      subCanon "esponse".toList (subCanon "equest".toList l) :=
    subCanon_id_of_no_low _ _ hnl2
  have hnl3 := subCanon_no_low "esponse".toList hPo hRo
    (subCanon "equest".toList l)
  have e2 : subCanon "esponse".toList
      (subCanon "esponse".toList (subCanon "equest".toList l)) =
      subCanon "esponse".toList (subCanon "equest".toList l) :=
    subCanon_id_of_no_low _ _ hnl3
  rw [e1, e2]

/-! ### C7: helper lemmas -/

/-- Digits lie below code point 58. -/
theorem toNat_le_of_isDigit {c : Char} (h : c.isDigit = true) :
    c.toNat ≤ 57 := by
  unfold Char.isDigit at h
  rw [Bool.and_eq_true, decide_eq_true_iff, decide_eq_true_iff] at h
  have h2 := h.2
  rw [UInt32.le_def] at h2
  exact h2

/-- Lowercasing does not move characters below the uppercase range. -/
theorem toLower_eq_self_of_lt {c : Char} (h : c.toNat < 65) :
    c.toLower = c := by
  unfold Char.toLower
  rw [if_neg]
  intro hc
  omega

/-- A digit never matches `P` case-insensitively. -/
theorem digit_not_ci_p {c : Char} (h : c.isDigit = true) :
    (c.toLower == 'P'.toLower) = false := by
  have h1 : c.toNat ≤ 57 := toNat_le_of_isDigit h
  rw [toLower_eq_self_of_lt (by omega), show 'P'.toLower = 'p' from by decide,
    beq_eq_false_iff_ne]
  intro hc
  subst hc
  exact absurd h1 (by decide)

/-- A digit never matches `[` case-insensitively. -/
theorem digit_not_ci_lb {c : Char} (h : c.isDigit = true) :
    (c.toLower == '['.toLower) = false := by
  have h1 : c.toNat ≤ 57 := toNat_le_of_isDigit h
  rw [toLower_eq_self_of_lt (by omega), show '['.toLower = '[' from by decide,
    beq_eq_false_iff_ne]
  intro hc
  subst hc
  exact absurd h1 (by decide)

/-- A case-insensitive literal fails when its first character differs. -/
theorem ciPrefix_head_false {p0 c : Char} {ps cs : List Char}
    (h : (c.toLower == p0.toLower) = false) :
    ciPrefix (p0 :: ps) (c :: cs) = false := by
  simp [ciPrefix, h]

/-- A guarded token search fails on a line in which no character matches
the token's first character case-insensitively. -/
theorem reSearch_guard_none {α : Type} {b : List Char → Bool}
    {r : List Char → Option α} {p0 : Char} {ptail l : List Char}
    (hl : ∀ c ∈ l, (c.toLower == p0.toLower) = false) :
    reSearch (fun s =>
      if ciPrefix (p0 :: ptail) s && b s then r s else none) l = none := by
  induction l with
  | nil => simp [reSearch, ciPrefix]
  | cons c cs ih =>
    rw [reSearch]
    have hc : ciPrefix (p0 :: ptail) (c :: cs) = false :=
      ciPrefix_head_false (hl c (by simp))
    rw [if_neg (by rw [hc]; simp)]
    exact ih (fun c hc => hl c (by simp [hc]))

/-- Characters of the stripped line come from the line. -/
theorem mem_of_mem_strip {c : Char} {l : List Char} (h : c ∈ strip l) :
    c ∈ l := by
  unfold strip at h
  rw [List.mem_reverse] at h
  have h2 := (List.dropWhile_suffix pyIsSpace).sublist.subset h
  rw [List.mem_reverse] at h2
  exact (List.dropWhile_suffix pyIsSpace).sublist.subset h2

/-- `dropWhile` is the identity when the head does not satisfy the test. -/
theorem dropWhile_eq_self_of_head {p : Char → Bool} {l : List Char}
    (h : ∀ c, l.head? = some c → p c = false) : l.dropWhile p = l := by
  cases l with
  | nil => rfl
  | cons c cs => simp [List.dropWhile_cons, h c rfl]

/-- `strip` is the identity when neither end is whitespace. -/
theorem strip_eq_self {l : List Char}
    (h1 : ∀ c, l.head? = some c → pyIsSpace c = false)
    (h2 : ∀ c, l.getLast? = some c → pyIsSpace c = false) : strip l = l := by
  unfold strip
  rw [dropWhile_eq_self_of_head h1]
  rw [dropWhile_eq_self_of_head
    (fun c hc => h2 c (by rwa [List.head?_reverse] at hc))]
  exact List.reverse_reverse l

/-- A line whose characters cannot open the Ping token or the `[File]`
header contributes neither a data row nor a value in paste mode. -/
theorem pasteLineValue_none_of_chars {l : List Char}
    (hp : ∀ c ∈ l, (c.toLower == 'P'.toLower) = false)
    (hb : ∀ c ∈ l, (c.toLower == '['.toLower) = false) :
    pasteLineValue pingToken l = none := by
  unfold pasteLineValue
  by_cases h1 : (strip l).isEmpty
  · rw [if_pos h1]
  · rw [if_neg h1]
    have hh : headerName (strip l) = none := by
      cases hs : strip l with
      | nil => rw [hs] at h1; exact absurd rfl h1
      | cons c cs =>
        unfold headerName
        rw [if_neg]
        rw [show ("[file]".toList : List Char) = '[' :: "file]".toList from rfl,
          ciPrefix_head_false]
        · simp
        · exact hb c (mem_of_mem_strip (hs ▸ List.mem_cons_self c cs))
    rw [hh]
    have hf : pasteFilterTok pingToken (strip l) = false := by
      unfold pasteFilterTok
      rw [show (pingToken : List Char) = 'P' :: "ing-AvgResult".toList from rfl]
      rw [reSearch_guard_none
        (fun c hc => hp c (mem_of_mem_strip hc))]
      rfl
    rw [if_neg (by rw [hf]; simp)]

/-- Characters of a short date match are digits or dashes. -/
theorem matchDateShort_chars {l out : List Char}
    (h : matchDateAt.matchDateShort l = some out) :
    out ≠ [] ∧ ∀ x ∈ out, (x.isDigit = true ∨ x = '-') := by
  unfold matchDateAt.matchDateShort at h
  split at h
  case h_1 a b c d e t =>
    split at h
    case isTrue hc =>
      simp only [Bool.and_eq_true, beq_iff_eq] at hc
      obtain ⟨⟨⟨⟨ha, hb⟩, hc3⟩, hd⟩, he⟩ := hc
      obtain rfl := Option.some.inj h
      refine ⟨by simp, ?_⟩
      intro x hx
      simp only [List.mem_cons, List.not_mem_nil, or_false] at hx
      rcases hx with rfl | rfl | rfl | rfl | rfl
      · exact Or.inl ha
      · exact Or.inl hb
      · exact Or.inr hc3
      · exact Or.inl hd
      · exact Or.inl he
    case isFalse => exact absurd h (by simp)
  case h_2 => exact absurd h (by simp)

/-- Characters of a date match are digits or dashes. -/
theorem matchDateAt_chars {l out : List Char} (h : matchDateAt l = some out) :
    out ≠ [] ∧ ∀ x ∈ out, (x.isDigit = true ∨ x = '-') := by
  unfold matchDateAt at h
  split at h
  case h_1 a b c d e f g hh i j t =>
    split at h
    case isTrue hc =>
      simp only [Bool.and_eq_true, beq_iff_eq] at hc
      obtain ⟨⟨⟨⟨⟨⟨⟨⟨⟨ha, hb⟩, hc3⟩, hd⟩, he⟩, hf⟩, hg⟩, hh8⟩, hi⟩, hj⟩ := hc
      obtain rfl := Option.some.inj h
      refine ⟨by simp, ?_⟩
      intro x hx
      simp only [List.mem_cons, List.not_mem_nil, or_false] at hx
      rcases hx with rfl | rfl | rfl | rfl | rfl | rfl | rfl | rfl | rfl | rfl
      · exact Or.inl ha
      · exact Or.inl hb
      · exact Or.inl hc3
      · exact Or.inl hd
      · exact Or.inr he
      · exact Or.inl hf
      · exact Or.inl hg
      · exact Or.inr hh8
      · exact Or.inl hi
      · exact Or.inl hj
    case isFalse =>
      split at h
      case isTrue hc =>
        simp only [Bool.and_eq_true, beq_iff_eq] at hc
        obtain ⟨⟨⟨⟨ha, hb⟩, hc3⟩, hd⟩, he⟩ := hc
        obtain rfl := Option.some.inj h
        refine ⟨by simp, ?_⟩
        intro x hx
        simp only [List.mem_cons, List.not_mem_nil, or_false] at hx
        rcases hx with rfl | rfl | rfl | rfl | rfl
        · exact Or.inl ha
        · exact Or.inl hb
        · exact Or.inr hc3
        · exact Or.inl hd
        · exact Or.inl he
      case isFalse => exact matchDateShort_chars h
  case h_2 => exact matchDateShort_chars h

/-- Characters of a time match are digits or time punctuation. -/
theorem matchTimeAt_chars {l out : List Char} (h : matchTimeAt l = some out) :
    out ≠ [] ∧
      ∀ x ∈ out, (x.isDigit = true ∨ x = ':' ∨ x = '.' ∨ x = ',') := by
  unfold matchTimeAt at h
  split at h
  case h_2 => exact absurd h (by simp)
  case h_1 h1 h2 c1 m1 m2 c2 s1 s2 rest =>
    split at h
    case isFalse => exact absurd h (by simp)
    case isTrue hc =>
      simp only [Bool.and_eq_true, beq_iff_eq] at hc
      obtain ⟨⟨⟨⟨⟨⟨⟨hh1, hh2⟩, hc1⟩, hm1⟩, hm2⟩, hc2⟩, hs1⟩, hs2⟩ := hc
      have base : ∀ x ∈ [h1, h2, c1, m1, m2, c2, s1, s2],
          (x.isDigit = true ∨ x = ':' ∨ x = '.' ∨ x = ',') := by
        intro x hx
        simp only [List.mem_cons, List.not_mem_nil, or_false] at hx
        rcases hx with rfl | rfl | rfl | rfl | rfl | rfl | rfl | rfl
        · exact Or.inl hh1
        · exact Or.inl hh2
        · exact Or.inr (Or.inl hc1)
        · exact Or.inl hm1
        · exact Or.inl hm2
        · exact Or.inr (Or.inl hc2)
        · exact Or.inl hs1
        · exact Or.inl hs2
      split at h
      case h_2 =>
        obtain rfl := Option.some.inj h
        exact ⟨by simp, base⟩
      case h_1 p tl =>
        split at h
        case isFalse =>
          obtain rfl := Option.some.inj h
          exact ⟨by simp, base⟩
        case isTrue hpd =>
          dsimp only [] at h
          split at h
          case isFalse =>
            obtain rfl := Option.some.inj h
            exact ⟨by simp, base⟩
          case isTrue hlen =>
            obtain rfl := Option.some.inj h
            refine ⟨by simp, ?_⟩
            intro x hx
            rw [List.mem_append] at hx
            rcases hx with hx | hx
            · exact base x hx
            · rw [List.mem_cons] at hx
              rcases hx with hx | hx
              · have hpd2 : x = '.' ∨ x = ',' := by
                  subst hx
                  simpa [beq_iff_eq] using hpd
                rcases hpd2 with rfl | rfl
                · exact Or.inr (Or.inr (Or.inl rfl))
                · exact Or.inr (Or.inr (Or.inr rfl))
              · have hxd : x ∈ tl.takeWhile Char.isDigit :=
                  List.mem_of_mem_take hx
                exact Or.inl (List.mem_takeWhile_imp hxd)

/-- A search skips a region in which the matcher fails everywhere. -/
theorem reSearch_append_none {α : Type} {f : List Char → Option α}
    (xs ys : List Char)
    (hx : ∀ i, i < xs.length → f (xs.drop i ++ ys) = none) :
    reSearch f (xs ++ ys) = reSearch f ys := by
  induction xs with
  | nil => rfl
  | cons c cs ih =>
    rw [List.cons_append, reSearch]
    have h0 : f (c :: (cs ++ ys)) = none := by
      have := hx 0 (by simp)
      simpa using this
    rw [h0]
    exact ih (fun i hi => by
      have := hx (i + 1) (by simp; omega)
      simpa using this)

/-- A case-sensitive literal window that fits inside the left part of an
append ignores the right part. -/
theorem isPrefixOf_append_of_le {pat xs : List Char} (ys : List Char)
    (h : pat.length ≤ xs.length) :
    pat.isPrefixOf (xs ++ ys) = pat.isPrefixOf xs := by
  induction pat generalizing xs with
  | nil => simp [List.isPrefixOf]
  | cons p ps ih =>
    cases xs with
    | nil => simp at h
    | cons x xt =>
      rw [List.cons_append]
      show (p == x && ps.isPrefixOf (xt ++ ys)) = (p == x && ps.isPrefixOf xt)
      rw [ih (by simpa using h)]

/-- A case-insensitive literal window that fits inside the left part of an
append ignores the right part. -/
theorem ciPrefix_append_of_le {pat xs : List Char} (ys : List Char)
    (h : pat.length ≤ xs.length) :
    ciPrefix pat (xs ++ ys) = ciPrefix pat xs := by
  induction pat generalizing xs with
  | nil => simp [ciPrefix]
  | cons p ps ih =>
    cases xs with
    | nil => simp at h
    | cons x xt =>
      rw [List.cons_append]
      show (x.toLower == p.toLower && ciPrefix ps (xt ++ ys)) =
        (x.toLower == p.toLower && ciPrefix ps xt)
      rw [ih (by simpa using h)]

/-- The last element of an append with a nonempty right part. -/
theorem getLast?_append_right {x y : List Char} (hy : y ≠ []) :
    (x ++ y).getLast? = y.getLast? := by
  rw [List.getLast?_append]
  cases hc : y.getLast? with
  | some c => rfl
  | none =>
    exact absurd (List.getLast?_eq_none_iff.mp hc) hy

/-- The last element belongs to the list. -/
theorem mem_of_getLast? {c : Char} {l : List Char} (h : l.getLast? = some c) :
    c ∈ l := by
  rw [List.getLast?_eq_getElem?] at h
  obtain ⟨hlt, heq⟩ := List.getElem?_eq_some_iff.mp h
  exact heq ▸ List.getElem_mem hlt

/-- The decimal digit characters are digits. -/
theorem digitChar_isDigit (k : ℕ) : (digitChar k).isDigit = true := by
  unfold digitChar
  have hm : k % 10 < 10 := Nat.mod_lt _ (by omega)
  set m := k % 10 with hmm
  interval_cases m <;> decide

/-- Decimal renderings consist of digits. -/
theorem natCharsF_digits (f n : ℕ) :
    ∀ c ∈ natCharsF f n, c.isDigit = true := by
  induction f generalizing n with
  | zero => intro c hc; simp [natCharsF] at hc
  | succ f ih =>
    intro c hc
    rw [natCharsF] at hc
    by_cases h10 : n < 10
    · rw [if_pos h10] at hc
      simp only [List.mem_cons, List.not_mem_nil, or_false] at hc
      subst hc
      exact digitChar_isDigit n
    · rw [if_neg h10, List.mem_append] at hc
      rcases hc with hc | hc
      · exact ih (n / 10) c hc
      · simp only [List.mem_cons, List.not_mem_nil, or_false] at hc
        subst hc
        exact digitChar_isDigit (n % 10)

/-- `str(n)` consists of digits. -/
theorem natChars_digits (n : ℕ) : ∀ c ∈ natChars n, c.isDigit = true :=
  natCharsF_digits (n + 1) n

/-- Digits are word characters. -/
theorem isWordChar_of_digit {c : Char} (h : c.isDigit = true) :
    isWordChar c = true := by
  unfold isWordChar
  rw [h]
  simp

/-- The greedy `[\d.]+\b` cut keeps the whole run when the run ends the
string with a digit. -/
theorem bestCut_full {n : List Char} (hne : n ≠ [])
    (hlast : ∀ c, n.getLast? = some c → c.isDigit = true) :
    bestCut n none = some n.length := by
  unfold bestCut
  obtain ⟨k, hk⟩ : ∃ k, n.length = k + 1 := by
    cases n with
    | nil => exact absurd rfl hne
    | cons a l => exact ⟨l.length, by simp⟩
  rw [hk, List.range_succ, List.reverse_append]
  simp only [List.reverse_cons, List.reverse_nil, List.nil_append,
    List.singleton_append, List.map_cons]
  rw [List.find?_cons]
  have hlastc : ∃ c, n.getLast? = some c := by
    cases hc : n.getLast? with
    | some c => exact ⟨c, rfl⟩
    | none => exact absurd (List.getLast?_eq_none_iff.mp hc) hne
  obtain ⟨c, hc⟩ := hlastc
  have hcd : c.isDigit = true := hlast c hc
  have hgd : n.getD (k + 1 - 1) ' ' = c := by
    rw [List.getLast?_eq_getElem?] at hc
    simp only [Nat.add_sub_cancel]
    rw [List.getD_eq_getElem?_getD, hk] at *
    simp only [Nat.add_sub_cancel] at hc ⊢
    rw [hc]
    rfl
  have hcond : (isWordChar (n.getD (k + 1 - 1) ' ') !=
      (if k + 1 < k + 1 then isWordChar (n.getD (k + 1) ' ')
       else wordOpt none)) = true := by
    rw [hgd, isWordChar_of_digit hcd, if_neg (by omega)]
    rfl
  rw [hcond]

/-- The lazy value tail on `=` followed by a full digit run to the end of
the line yields the run. -/
theorem lazyVal_eq_run {n : List Char} (hne : n ≠ [])
    (hdd : ∀ c ∈ n, digitDot c = true)
    (hlast : ∀ c, n.getLast? = some c → c.isDigit = true) :
    lazyVal ('=' :: n) = some n := by
  rw [lazyVal]
  rw [if_pos (by decide)]
  have hrun : n.takeWhile digitDot = n := List.takeWhile_eq_self_iff.mpr hdd
  rw [hrun]
  rw [if_neg (by simp [List.isEmpty_iff, hne])]
  rw [List.drop_length]
  show (match bestCut n none with
    | some j => some (n.take j)
    | none => lazyVal n) = some n
  rw [bestCut_full hne hlast]
  show some (n.take n.length) = some n
  rw [List.take_length]

/-- Inversion of one-line extraction: the fields of a produced row. -/
theorem rowOfLine_inv {l : List Char} {r : PingRow}
    (h : rowOfLine l = some r) :
    dateSearch l = some r.date ∧ timeSearch l = some r.time ∧
    speedSearch l = some r.raw_msg ∧ pingMsgFilter r.raw_msg = true ∧
    (r.typ, r.seq, r.value) = classify r.raw_msg ∧
    r.display = r.date ++ ' ' :: r.time ++ ' ' :: normalizeMsg r.raw_msg := by
  unfold rowOfLine at h
  split at h
  case h_1 => exact absurd h (by simp)
  case h_2 dt d t hdt =>
    split at h
    case h_1 => exact absurd h (by simp)
    case h_2 raw hraw =>
      split at h
      case isFalse => exact absurd h (by simp)
      case isTrue hfil =>
        obtain rfl := Option.some.inj h
        have hdt2 : dateSearch l = some d ∧ timeSearch l = some t := by
          unfold findDateTime at hdt
          split at hdt
          case h_1 d2 t2 hd2 ht2 =>
            have hpair := Option.some.inj hdt
            rw [Prod.mk.injEq] at hpair
            obtain ⟨rfl, rfl⟩ := hpair
            exact ⟨hd2, ht2⟩
          case h_2 => exact absurd hdt (by simp)
        exact ⟨hdt2.1, hdt2.2, hraw, hfil, rfl, rfl⟩

/-- Scanning only rewrites when no witness character is absent: if some
character of the lowercase pattern does not occur in the line, the scan is
the identity. -/
theorem subCanon_id_of_char_absent {s l : List Char} {c : Char}
    (hcl : c ∈ patLow s) (hc : c ∉ l) : subCanon s l = l := by
  apply subCanon_id_of_no_low
  intro p heq
  exact hc (List.mem_of_mem_drop (List.mem_of_mem_take (heq ▸ hcl)))

/-- Normalisation does not touch a plain AvgResult payload (it contains
neither a request nor a response sub-label). -/
theorem normalizeMsg_avg_id {n : List Char}
    (hn : ∀ c ∈ n, digitDot c = true) :
    normalizeMsg (avgPre ++ n) = avgPre ++ n := by
  have hq : 'q' ∉ avgPre ++ n := by
    rw [List.mem_append]
    rintro (h | h)
    · exact absurd h (by decide)
    · exact absurd (hn 'q' h) (by decide)
  have ho : 'o' ∉ avgPre ++ n := by
    rw [List.mem_append]
    rintro (h | h)
    · exact absurd h (by decide)
    · exact absurd (hn 'o' h) (by decide)
  unfold normalizeMsg
  rw [subCanon_id_of_char_absent (show 'q' ∈ patLow "equest".toList from by decide) hq]
  rw [subCanon_id_of_char_absent (show 'o' ∈ patLow "esponse".toList from by decide) ho]

/-- A request match always contains a `q`. -/
theorem reqSearch_eq_none {l : List Char} (hq : 'q' ∉ l) :
    reqSearch l = none := by
  cases hr : reqSearch l with
  | none => rfl
  | some ds =>
    exfalso
    obtain ⟨i, hi⟩ := reSearch_eq_some hr
    apply hq
    apply List.mem_of_mem_drop (n := i)
    unfold reqAt at hi
    split at hi
    case isFalse => exact absurd hi (by simp)
    case isTrue h1 =>
      split at hi
      case h_2 => exact absurd hi (by simp)
      case h_1 r t2 hsplit =>
        split at hi
        case isFalse => exact absurd hi (by simp)
        case isTrue h2 =>
          have hpref : "equest".toList <+: t2 :=
            List.isPrefixOf_iff_prefix.mp (Bool.and_eq_true .. ▸ h2).2
          have hmem : 'q' ∈ t2 :=
            hpref.sublist.subset (by decide)
          have ht2 : t2 <:+ l.drop i := by
            have h5 : (l.drop i).drop 5 <:+ l.drop i := List.drop_suffix _ _
            rw [hsplit] at h5
            exact (List.suffix_cons r t2).trans h5
          exact ht2.sublist.subset hmem

/-- A response match always contains an `o`. -/
theorem respSearch_eq_none {l : List Char} (ho : 'o' ∉ l) :
    respSearch l = none := by
  cases hr : respSearch l with
  | none => rfl
  | some ds =>
    exfalso
    obtain ⟨i, hi⟩ := reSearch_eq_some hr
    apply ho
    apply List.mem_of_mem_drop (n := i)
    unfold respAt at hi
    split at hi
    case isFalse => exact absurd hi (by simp)
    case isTrue h1 =>
      split at hi
      case h_2 => exact absurd hi (by simp)
      case h_1 r t2 hsplit =>
        split at hi
        case isFalse => exact absurd hi (by simp)
        case isTrue h2 =>
          have hpref : "esponse".toList <+: t2 :=
            List.isPrefixOf_iff_prefix.mp (Bool.and_eq_true .. ▸ h2).2
          have hmem : 'o' ∈ t2 :=
            hpref.sublist.subset (by decide)
          have ht2 : t2 <:+ l.drop i := by
            have h5 : (l.drop i).drop 5 <:+ l.drop i := List.drop_suffix _ _
            rw [hsplit] at h5
            exact (List.suffix_cons r t2).trans h5
          exact ht2.sublist.subset hmem

/-- `AVG_RE.search` on a plain AvgResult payload: the leftmost literal
occurrence is the real one (the marker region cannot contain it), and the
capture follows the `=`. -/
theorem avgSearch_avgPre (n : List Char) :
    avgSearch (avgPre ++ n) = some (avgCapture ('=' :: n)) := by
  have hskip : ∀ i, i < ("SpeedTestSKT : TestData ".toList).length →
      avgAt (("SpeedTestSKT : TestData ".toList).drop i ++
        ("Ping-AvgResult".toList ++ ('=' :: n))) = none := by
    intro i hi
    have h24 : ("SpeedTestSKT : TestData ".toList).length = 24 := rfl
    unfold avgAt
    have hassoc : ("SpeedTestSKT : TestData ".toList).drop i ++
        ("Ping-AvgResult".toList ++ ('=' :: n)) =
        (("SpeedTestSKT : TestData ".toList).drop i ++
          "Ping-AvgResult=".toList) ++ n := by
      simp [List.append_assoc]
    have hcond : ¬ ("Ping-AvgResult".toList.isPrefixOf
        (("SpeedTestSKT : TestData ".toList).drop i ++
          ("Ping-AvgResult".toList ++ ('=' :: n))) = true) := by
      rw [hassoc]
      rw [isPrefixOf_append_of_le n (by
        rw [List.length_append]
        have h15 : ("Ping-AvgResult=".toList).length = 15 := rfl
        have h14 : ("Ping-AvgResult".toList).length = 14 := rfl
        omega)]
      have hkey : ∀ j, j < 24 →
          ("Ping-AvgResult".toList).isPrefixOf
            ((("SpeedTestSKT : TestData ".toList).drop j) ++
              "Ping-AvgResult=".toList) = false := by decide
      intro hcontra
      rw [hkey i (by omega)] at hcontra
      exact absurd hcontra (by simp)
    rw [if_neg hcond]
  have hsplit : avgPre ++ n =
      "SpeedTestSKT : TestData ".toList ++
        ("Ping-AvgResult".toList ++ ('=' :: n)) := rfl
  rw [hsplit]
  show reSearch avgAt _ = _
  rw [reSearch_append_none _ _ hskip]
  exact avgSearch_at_head ('=' :: n)

/-- Unpacking of a plainly-shaped numeral. -/
theorem simpleNumeral_unpack {n : List Char} (h : simpleNumeral n = true) :
    n ≠ [] ∧ (∀ c ∈ n, digitDot c = true) ∧
      (∀ c, n.getLast? = some c → c.isDigit = true) := by
  unfold simpleNumeral at h
  simp only [Bool.and_eq_true] at h
  obtain ⟨⟨⟨⟨h1, h2⟩, h3⟩, h4⟩, h5⟩ := h
  refine ⟨by simpa [List.isEmpty_iff] using h1, ?_, ?_⟩
  · intro c hc
    exact (List.all_eq_true.mp h2) c hc
  · intro c hc
    rw [hc] at h4
    exact h4

/-- Classification of a plain AvgResult payload. -/
theorem classify_avgPre {n : List Char} (hn : ∀ c ∈ n, digitDot c = true)
    (hne : n ≠ []) :
    classify (avgPre ++ n) = ("Ping-AvgResult".toList, [], n) := by
  have hq : 'q' ∉ avgPre ++ n := by
    rw [List.mem_append]
    rintro (h | h)
    · exact absurd h (by decide)
    · exact absurd (hn 'q' h) (by decide)
  have ho : 'o' ∉ avgPre ++ n := by
    rw [List.mem_append]
    rintro (h | h)
    · exact absurd h (by decide)
    · exact absurd (hn 'o' h) (by decide)
  unfold classify
  rw [reqSearch_eq_none hq, respSearch_eq_none ho, avgSearch_avgPre]
  obtain ⟨c, n', rfl⟩ := List.exists_cons_of_ne_nil hne
  have hc : digitDot c = true := hn c (by simp)
  rw [avgCapture_eq_sep hc,
    List.takeWhile_eq_self_iff.mpr (fun x hx => hn x (by simp [hx]))]
  rfl

/-- Date characters cannot open the Ping token case-insensitively. -/
theorem date_char_not_ci_p {c : Char} (h : c.isDigit = true ∨ c = '-') :
    (c.toLower == 'P'.toLower) = false := by
  rcases h with h | rfl
  · exact digit_not_ci_p h
  · decide

/-- Time characters cannot open the Ping token case-insensitively. -/
theorem time_char_not_ci_p {c : Char}
    (h : c.isDigit = true ∨ c = ':' ∨ c = '.' ∨ c = ',') :
    (c.toLower == 'P'.toLower) = false := by
  rcases h with h | rfl | rfl | rfl
  · exact digit_not_ci_p h
  · decide
  · decide
  · decide

/-- A guarded Ping-token search over a display line lands exactly on the
payload's token occurrence: the date, the time, the separators and the
structured-log marker cannot host an earlier match. -/
theorem display_guard_search {α : Type} {R : List Char → Option α} {a : α}
    {d t n : List Char}
    (hdc : ∀ c ∈ d, (c.isDigit = true ∨ c = '-'))
    (htc : ∀ c ∈ t, (c.isDigit = true ∨ c = ':' ∨ c = '.' ∨ c = ','))
    (hR : R ("Ping-AvgResult".toList ++ ('=' :: n)) = some a) :
    reSearch (fun s =>
        if ciPrefix pingToken s && bdryAfterTok pingToken s then R s
        else none)
      (d ++ (' ' :: (t ++ (' ' :: (avgPre ++ n))))) = some a := by
  set F : List Char → Option α := fun s =>
    if ciPrefix pingToken s && bdryAfterTok pingToken s then R s
    else none with hF
  have gnone : ∀ (c : Char) (cs : List Char),
      (c.toLower == 'P'.toLower) = false → F (c :: cs) = none := by
    intro c cs hc
    rw [hF]
    show (if ciPrefix pingToken (c :: cs) && bdryAfterTok pingToken (c :: cs)
      then R (c :: cs) else none) = none
    rw [if_neg]
    rw [show (pingToken : List Char) = 'P' :: "ing-AvgResult".toList from rfl,
      ciPrefix_head_false hc]
    simp
  have h1 : reSearch F (d ++ (' ' :: (t ++ (' ' :: (avgPre ++ n))))) =
      reSearch F (' ' :: (t ++ (' ' :: (avgPre ++ n)))) :=
    reSearch_append_none d _ (fun i hi => by
      rw [List.drop_eq_getElem_cons hi, List.cons_append]
      exact gnone _ _ (date_char_not_ci_p (hdc _ (List.getElem_mem hi))))
  have h2 : reSearch F (' ' :: (t ++ (' ' :: (avgPre ++ n)))) =
      reSearch F (t ++ (' ' :: (avgPre ++ n))) := by
    rw [reSearch, gnone ' ' _ (by decide)]
  have h3 : reSearch F (t ++ (' ' :: (avgPre ++ n))) =
      reSearch F (' ' :: (avgPre ++ n)) :=
    reSearch_append_none t _ (fun i hi => by
      rw [List.drop_eq_getElem_cons hi, List.cons_append]
      exact gnone _ _ (time_char_not_ci_p (htc _ (List.getElem_mem hi))))
  have h4 : reSearch F (' ' :: (avgPre ++ n)) =
      reSearch F (avgPre ++ n) := by
    rw [reSearch, gnone ' ' _ (by decide)]
  have hsplit : avgPre ++ n =
      "SpeedTestSKT : TestData ".toList ++
        ("Ping-AvgResult".toList ++ ('=' :: n)) := rfl
  have h5 : reSearch F ("SpeedTestSKT : TestData ".toList ++
      ("Ping-AvgResult".toList ++ ('=' :: n))) =
      reSearch F ("Ping-AvgResult".toList ++ ('=' :: n)) :=
    reSearch_append_none _ _ (fun i hi => by
      have h24 : ("SpeedTestSKT : TestData ".toList).length = 24 := rfl
      rw [h24] at hi
      have hassoc : ("SpeedTestSKT : TestData ".toList).drop i ++
          ("Ping-AvgResult".toList ++ ('=' :: n)) =
          (("SpeedTestSKT : TestData ".toList).drop i ++
            "Ping-AvgResult=".toList) ++ n := by
        simp [List.append_assoc]
      rw [hF]
      show (if ciPrefix pingToken (("SpeedTestSKT : TestData ".toList).drop i
          ++ ("Ping-AvgResult".toList ++ ('=' :: n))) &&
          bdryAfterTok pingToken (("SpeedTestSKT : TestData ".toList).drop i
          ++ ("Ping-AvgResult".toList ++ ('=' :: n))) then _ else none) = none
      rw [if_neg]
      rw [hassoc]
      rw [ciPrefix_append_of_le n (by
        rw [List.length_append]
        have h15 : ("Ping-AvgResult=".toList).length = 15 := rfl
        have h14 : (pingToken : List Char).length = 14 := rfl
        omega)]
      have hkey : ∀ j, j < 24 →
          ciPrefix pingToken
            ((("SpeedTestSKT : TestData ".toList).drop j) ++
              "Ping-AvgResult=".toList) = false := by decide
      rw [hkey i hi]
      simp)
  have h6 : reSearch F ("Ping-AvgResult".toList ++ ('=' :: n)) = some a := by
    apply reSearch_of_head
    have hci : ciPrefix pingToken ("Ping-AvgResult".toList ++ ('=' :: n))
        = true := by
      rw [ciPrefix_append_of_le ('=' :: n) (by decide)]
      decide
    have hbd : bdryAfterTok pingToken
        ("Ping-AvgResult".toList ++ ('=' :: n)) = true := by
      unfold bdryAfterTok
      rw [show (pingToken : List Char).length =
        ("Ping-AvgResult".toList).length from rfl, List.drop_left,
        List.head?_cons]
      decide
    rw [hF]
    show (if ciPrefix pingToken ("Ping-AvgResult".toList ++ ('=' :: n)) &&
        bdryAfterTok pingToken ("Ping-AvgResult".toList ++ ('=' :: n))
        then R ("Ping-AvgResult".toList ++ ('=' :: n)) else none) = some a
    rw [hci, hbd]
    simpa using hR
  rw [h1, h2, h3, h4, hsplit, h5, h6]

/-- Paste-mode processing of one rendered AvgResult display line: the line
is kept by the filter and its extracted value is the numeral's. -/
theorem display_paste_line {d t n : List Char} (hd : d ≠ [])
    (hdc : ∀ c ∈ d, (c.isDigit = true ∨ c = '-'))
    (htc : ∀ c ∈ t, (c.isDigit = true ∨ c = ':' ∨ c = '.' ∨ c = ','))
    (hn : simpleNumeral n = true) :
    pasteLineValue pingToken (d ++ (' ' :: (t ++ (' ' :: (avgPre ++ n))))) =
      toFloatQ n := by
  obtain ⟨hne, hdd, hlast⟩ := simpleNumeral_unpack hn
  obtain ⟨c0, d', rfl⟩ := List.exists_cons_of_ne_nil hd
  have hc0 : c0.isDigit = true ∨ c0 = '-' := hdc c0 (by simp)
  have hc0s : pyIsSpace c0 = false := by
    rcases hc0 with h | rfl
    · exact digitDot_not_space (by simp [digitDot, h])
    · decide
  have hhead : ((c0 :: d') ++ (' ' :: (t ++ (' ' :: (avgPre ++ n))))).head?
      = some c0 := by
    rw [List.cons_append, List.head?_cons]
  have hstrip : strip ((c0 :: d') ++ (' ' :: (t ++ (' ' :: (avgPre ++ n)))))
      = (c0 :: d') ++ (' ' :: (t ++ (' ' :: (avgPre ++ n)))) := by
    apply strip_eq_self
    · intro c hc
      rw [hhead] at hc
      exact (Option.some.inj hc) ▸ hc0s
    · intro c hc
      rw [getLast?_append_right (by simp)] at hc
      rw [show (' ' :: (t ++ (' ' :: (avgPre ++ n)))) =
        [' '] ++ (t ++ (' ' :: (avgPre ++ n))) from rfl] at hc
      rw [getLast?_append_right (by simp)] at hc
      rw [getLast?_append_right (by simp)] at hc
      rw [show (' ' :: (avgPre ++ n)) = [' '] ++ (avgPre ++ n) from rfl] at hc
      rw [getLast?_append_right
        (by intro h; exact hne (List.append_eq_nil.mp h).2)] at hc
      rw [getLast?_append_right hne] at hc
      have := hlast c hc
      exact digitDot_not_space (by simp [digitDot, this])
  unfold pasteLineValue
  rw [hstrip]
  rw [if_neg (by simp)]
  have hhdr : headerName ((c0 :: d') ++ (' ' :: (t ++ (' ' :: (avgPre ++ n)))))
      = none := by
    unfold headerName
    rw [List.cons_append]
    rw [if_neg]
    rw [show ("[file]".toList : List Char) = '[' :: "file]".toList from rfl]
    rw [ciPrefix_head_false (by
      rcases hc0 with h | rfl
      · exact digit_not_ci_lb h
      · decide)]
    simp
  rw [hhdr]
  have hfil : pasteFilterTok pingToken
      ((c0 :: d') ++ (' ' :: (t ++ (' ' :: (avgPre ++ n))))) = true := by
    unfold pasteFilterTok
    rw [display_guard_search hdc htc (show (fun _ : List Char => some ())
      ("Ping-AvgResult".toList ++ ('=' :: n)) = some () from rfl)]
    rfl
  rw [if_pos hfil]
  have hval : pasteValueTok pingToken
      ((c0 :: d') ++ (' ' :: (t ++ (' ' :: (avgPre ++ n))))) = some n := by
    unfold pasteValueTok
    apply display_guard_search hdc htc
    rw [show ("Ping-AvgResult".toList ++ ('=' :: n)).drop
      (pingToken : List Char).length = '=' :: n from by
      rw [show (pingToken : List Char).length =
        ("Ping-AvgResult".toList).length from rfl]
      exact List.drop_left _ _]
    exact lazyVal_eq_run hne hdd hlast
  rw [hval]
  rfl

/-- A blank line contributes nothing in paste mode. -/
theorem blank_line_value : pasteLineValue pingToken [] = none := rfl

/-- The rendered `[File]` header is consumed as a header, never as data. -/
theorem header_line_value {name : List Char} (hne : name ≠ [])
    (hns : ∀ c ∈ name, pyIsSpace c = false) :
    pasteLineValue pingToken ("[File] ".toList ++ name) = none := by
  unfold pasteLineValue
  have hstrip : strip ("[File] ".toList ++ name) = "[File] ".toList ++ name := by
    apply strip_eq_self
    · intro c hc
      rw [show ("[File] ".toList ++ name) =
        '[' :: ("File] ".toList ++ name) from rfl, List.head?_cons] at hc
      rw [← Option.some.inj hc]
      decide
    · intro c hc
      rw [getLast?_append_right hne] at hc
      exact hns c (mem_of_getLast? hc)
  rw [hstrip]
  rw [if_neg (by simp)]
  have hall : (' ' :: name).all pyIsSpace = false := by
    obtain ⟨c1, name', rfl⟩ := List.exists_cons_of_ne_nil hne
    have h1 := hns c1 (by simp)
    simp [h1]
  have hh : headerName ("[File] ".toList ++ name) = some (strip (' ' :: name)) := by
    unfold headerName
    rw [if_pos (by rw [ciPrefix_append_of_le name (by decide)]; decide)]
    rw [show ("[File] ".toList ++ name).drop 6 = ' ' :: name from rfl]
    dsimp only []
    rw [if_pos (show pyIsSpace ' ' = true from by decide)]
    rw [hall]
    simp
  rw [hh]

/-- Characters of the decimal rendering of a mean. -/
theorem fmt6_chars (q : ℚ) : ∀ c ∈ fmt6 q, (c.isDigit = true ∨ c = '.') := by
  intro c hc
  unfold fmt6 at hc
  rw [List.mem_append] at hc
  rcases hc with hc | hc
  · exact Or.inl (natChars_digits _ c hc)
  · rw [List.mem_cons] at hc
    rcases hc with rfl | hc
    · exact Or.inr rfl
    · rw [List.mem_append] at hc
      rcases hc with hc | hc
      · rw [List.eq_of_mem_replicate hc]
        exact Or.inl (by decide)
      · exact Or.inl (natChars_digits _ c hc)

/-- The numeric-count footer contributes nothing in paste mode. -/
theorem count_line_value (k : ℕ) :
    pasteLineValue pingToken (countLine k) = none := by
  apply pasteLineValue_none_of_chars <;> intro c hc <;>
    unfold countLine at hc <;>
    rw [List.mem_append, List.mem_append] at hc
  · rcases hc with (hc | hc) | hc
    · exact (by decide : ∀ x ∈ ("--- AvgResult Count (numeric): ".toList),
        (x.toLower == 'P'.toLower) = false) c hc
    · exact digit_not_ci_p (natChars_digits k c hc)
    · exact (by decide : ∀ x ∈ (" ---".toList),
        (x.toLower == 'P'.toLower) = false) c hc
  · rcases hc with (hc | hc) | hc
    · exact (by decide : ∀ x ∈ ("--- AvgResult Count (numeric): ".toList),
        (x.toLower == '['.toLower) = false) c hc
    · exact digit_not_ci_lb (natChars_digits k c hc)
    · exact (by decide : ∀ x ∈ (" ---".toList),
        (x.toLower == '['.toLower) = false) c hc

/-- The mean footer contributes nothing in paste mode. -/
theorem mean_line_value (m : Option ℚ) :
    pasteLineValue pingToken (meanLine m) = none := by
  have hchars : ∀ c ∈ meanLine m,
      (c.isDigit = true ∨ c = '.' ∨ c ∈ "Mean AvgResult: N/A".toList) := by
    intro c hc
    unfold meanLine at hc
    rw [List.mem_append] at hc
    rcases hc with hc | hc
    · exact Or.inr (Or.inr (by
        have : ("Mean AvgResult: ".toList : List Char) ⊆
            "Mean AvgResult: N/A".toList := by decide
        exact this hc))
    · cases m with
      | some q =>
        rcases fmt6_chars q c hc with h | h
        · exact Or.inl h
        · exact Or.inr (Or.inl h)
      | none =>
        exact Or.inr (Or.inr (by
          have : ("N/A".toList : List Char) ⊆
              "Mean AvgResult: N/A".toList := by decide
          exact this hc))
  apply pasteLineValue_none_of_chars <;> intro c hc
  · rcases hchars c hc with h | h | h
    · exact digit_not_ci_p h
    · subst h; decide
    · exact (by decide : ∀ x ∈ ("Mean AvgResult: N/A".toList),
        (x.toLower == 'P'.toLower) = false) c h
  · rcases hchars c hc with h | h | h
    · exact digit_not_ci_lb h
    · subst h; decide
    · exact (by decide : ∀ x ∈ ("Mean AvgResult: N/A".toList),
        (x.toLower == '['.toLower) = false) c h

/-! ### C7 amended -/

/-- C7 amended: the paste-of-render round trip is exact for logs whose
accepted AvgResult rows are plainly shaped — the payload is the marker,
`=`, and a plain numeral (`avgRowOKb`) — and whose file name is nonempty
without whitespace; in general the round trip can differ (see the
counterexample), because paste-mode value extraction is looser than
file-mode extraction. -/
theorem C7_amended_roundtrip :
    ∀ (lines : List (List Char)) (name : List Char), name ≠ [] →
      (∀ c ∈ name, pyIsSpace c = false) →
      (∀ l ∈ lines, avgRowOKb l = true) →
      (summarize_from_text pingToken
        (renderSummaryLines name (extract_ping_logs lines))).values =
        (summarize_avgresults (extract_ping_logs lines)).2.1 ∧
      meanQ (summarize_from_text pingToken
        (renderSummaryLines name (extract_ping_logs lines))).values =
        (summarize_avgresults (extract_ping_logs lines)).2.2 := by
  intro lines name hn1 hn2 hwf
  have hv : (summarize_from_text pingToken
      (renderSummaryLines name (extract_ping_logs lines))).values =
      (summarize_avgresults (extract_ping_logs lines)).2.1 := by
    unfold summarize_from_text
    rw [summarize_values_eq_filterMap]
    unfold renderSummaryLines
    dsimp only []
    simp only [List.filterMap_cons, List.filterMap_append,
      header_line_value hn1 hn2, blank_line_value, count_line_value,
      mean_line_value, List.filterMap_map, List.filterMap_nil,
      List.append_nil]
    have hgoal : (summarize_avgresults (extract_ping_logs lines)).2.1 =
        List.filterMap (fun r => toFloatQ r.value)
          (summarize_avgresults (extract_ping_logs lines)).1 := rfl
    rw [hgoal]
    apply List.filterMap_congr
    intro r hr
    have hr2 : r ∈ (extract_ping_logs lines).filter
        (fun r => decide (r.typ = "Ping-AvgResult".toList)) := hr
    obtain ⟨hrmem, hrtypb⟩ := List.mem_filter.mp hr2
    have hrtyp : r.typ = "Ping-AvgResult".toList := of_decide_eq_true hrtypb
    obtain ⟨l, hl, hrow⟩ := List.mem_filterMap.mp hrmem
    have hok := hwf l hl
    unfold avgRowOKb at hok
    rw [hrow] at hok
    dsimp only [] at hok
    rw [if_pos hrtyp] at hok
    rw [Bool.and_eq_true] at hok
    obtain ⟨hpre, hnum⟩ := hok
    obtain ⟨tail, htail2⟩ := List.isPrefixOf_iff_prefix.mp hpre
    have htl : r.raw_msg.drop avgPre.length = tail := by
      rw [← htail2, List.drop_left]
    rw [htl] at hnum
    obtain ⟨hne, hdd, hlast⟩ := simpleNumeral_unpack hnum
    obtain ⟨hdate, htime, hraw, hfil, hcls, hdisp⟩ := rowOfLine_inv hrow
    have hclass : classify r.raw_msg = ("Ping-AvgResult".toList, [], tail) := by
      rw [← htail2]
      exact classify_avgPre hdd hne
    have hval : r.value = tail := by
      rw [hclass] at hcls
      have := congrArg (fun p => p.2.2) hcls
      simpa using this
    have hnorm : normalizeMsg r.raw_msg = avgPre ++ tail := by
      rw [← htail2]
      exact normalizeMsg_avg_id hdd
    have hdchars : r.date ≠ [] ∧
        ∀ x ∈ r.date, (x.isDigit = true ∨ x = '-') := by
      obtain ⟨i, hi⟩ := reSearch_eq_some hdate
      exact matchDateAt_chars hi
    have htchars : r.time ≠ [] ∧
        ∀ x ∈ r.time, (x.isDigit = true ∨ x = ':' ∨ x = '.' ∨ x = ',') := by
      obtain ⟨i, hi⟩ := reSearch_eq_some htime
      exact matchTimeAt_chars hi
    show pasteLineValue pingToken r.display = toFloatQ r.value
    rw [hdisp, hnorm, hval]
    have hassoc : r.date ++ ' ' :: r.time ++ ' ' :: (avgPre ++ tail) =
        r.date ++ (' ' :: (r.time ++ (' ' :: (avgPre ++ tail)))) := by
      simp [List.append_assoc]
    rw [hassoc]
    exact display_paste_line hdchars.1 hdchars.2 htchars.2 hnum
  refine ⟨hv, by rw [hv]; rfl⟩

/-- C7 amended witness: a one-row log with a plain payload and a plain
file name round-trips to the same sample list. -/
theorem C7_amended_roundtrip_witness :
    (summarize_from_text pingToken (renderSummaryLines "a.txt".toList
      (extract_ping_logs
        ["01-02 03:04:05 SpeedTestSKT : TestData Ping-AvgResult=7".toList]))).values =
      (summarize_avgresults (extract_ping_logs
        ["01-02 03:04:05 SpeedTestSKT : TestData Ping-AvgResult=7".toList])).2.1 :=
  (C7_amended_roundtrip
    ["01-02 03:04:05 SpeedTestSKT : TestData Ping-AvgResult=7".toList]
    "a.txt".toList (by decide) (by decide) (by decide)).1

end SOp
